import Mathlib

/-!
# Image names: normalisation and synonyms

A shallow embedding of `pkg/image/name.go` (type `Name`, its accessors, `Normalize`,
`WithoutTag`, `Synonyms`, `synonym`, `parseHostPath`) together with the parts of the
packages it calls: `strings`, `path`, and the reference grammar of
`github.com/docker/distribution/reference` (`regexp.go`, `reference.go`, `normalize.go`).

Go strings are lists of characters.  A Go `panic` and a returned `error` are both made
explicit with `Except`.
-/

namespace Image

/-- Go strings. -/
abbrev Str := List Char

/-! ## Package `strings` and `path` -/

/-- Byte length of a string (`len(s)` in Go). -/
def goLen (s : Str) : Nat := (s.map Char.utf8Size).sum

/-- The text before and after the first occurrence of `c`
(`strings.IndexRune(s, c)` with the two slices `s[:i]` and `s[i+1:]`). -/
def cut (c : Char) : Str → Option (Str × Str)
  | [] => none
  | x :: xs =>
    if x = c then some ([], xs)
    else (cut c xs).map (fun ab => (x :: ab.1, ab.2))

/-- The text before and after the last occurrence of `c`. -/
def cutLast (c : Char) : Str → Option (Str × Str)
  | [] => none
  | x :: xs =>
    match cutLast c xs with
    | some (a, b) => some (x :: a, b)
    | none => if x = c then some ([], xs) else none

/-- `strings.Split(s, sep)` for a separator of one character. -/
def splitOn (c : Char) : Str → List Str
  | [] => [[]]
  | x :: xs =>
    if x = c then [] :: splitOn c xs
    else
      match splitOn c xs with
      | [] => [[x]]
      | h :: t => (x :: h) :: t

/-- `strings.Join(elems, sep)` for a separator of one character. -/
def joinWith (c : Char) : List Str → Str
  | [] => []
  | [a] => a
  | a :: b :: rest => a ++ c :: joinWith c (b :: rest)

/-- `strings.ToLower` on the ASCII letters; a letter outside ASCII is left as it is, where
Go lowers it.  The grammar accepts ASCII only, so the same texts are accepted; for a text
with an upper-case letter outside ASCII the error returned is the one of the grammar
instead of the one on upper case. -/
def toLower (s : Str) : Str := s.map Char.toLower

/-- One step of `path.Clean` on the stack of elements kept so far (innermost first). -/
def cleanStep (rooted : Bool) (stack : List Str) (e : Str) : List Str :=
  if e = [] ∨ e = ['.'] then stack
  else if e = ['.', '.'] then
    match stack with
    | top :: below => if top = ['.', '.'] then e :: stack else below
    | [] => if rooted then stack else [e]
  else e :: stack

/-- `path.Clean`: drops empty and `.` elements, resolves `..` elements against the
element before them, and returns `.` for an empty result. -/
def pathClean (p : Str) : Str :=
  let rooted := p.head? = some '/'
  let kept := ((splitOn '/' p).foldl (cleanStep rooted) []).reverse
  let body := joinWith '/' kept
  if rooted then '/' :: body
  else if body = [] then ['.'] else body

/-- `path.Join(a, b)`: the non-empty elements joined by a slash, then cleaned;
the empty string when both are empty. -/
def pathJoin (a b : Str) : Str :=
  if a = [] then (if b = [] then [] else pathClean b)
  else if b = [] then pathClean a
  else pathClean (a ++ '/' :: b)

/-! ## The reference grammar (`reference/regexp.go`)

Every expression below is used anchored at both ends.  An expression without a capture
group is a recogniser; for the three expressions with capture groups the captured texts
are fixed by the separators, since no name, tag or digest contains `@`, no tag contains
`:` or `/`, and a domain contains no `/`. -/

/-- The class `[a-z0-9]` of `alphaNumericRegexp`. -/
def alphaNumeric (c : Char) : Bool := c.isLower || c.isDigit

/-- Runs a deterministic automaton over a string. -/
def runDFA {σ : Type} (step : σ → Char → Option σ) (accept : σ → Bool) : σ → Str → Bool
  | q, [] => accept q
  | q, c :: cs =>
    match step q c with
    | some q' => runDFA step accept q' cs
    | none => false

/-- States of the automaton of `nameComponentRegexp`. -/
inductive CompState
  | start | alnum | dot | under1 | under2 | dash
deriving DecidableEq, Repr

/-- Transitions for `[a-z0-9]+(?:(?:[._]|__|[-]*)[a-z0-9]+)*`: after a run of `[a-z0-9]`
one period, one or two underscores, or any number of dashes may follow, and must be
followed again by `[a-z0-9]`. -/
def compStep : CompState → Char → Option CompState
  | .start, c => if alphaNumeric c then some .alnum else none
  | .alnum, c =>
    if alphaNumeric c then some .alnum
    else if c = '.' then some .dot
    else if c = '_' then some .under1
    else if c = '-' then some .dash
    else none
  | .dot, c => if alphaNumeric c then some .alnum else none
  | .under1, c =>
    if alphaNumeric c then some .alnum
    else if c = '_' then some .under2
    else none
  | .under2, c => if alphaNumeric c then some .alnum else none
  | .dash, c =>
    if alphaNumeric c then some .alnum
    else if c = '-' then some .dash
    else none

/-- The anchored `nameComponentRegexp`. -/
def nameComponentRegexp (s : Str) : Bool :=
  runDFA compStep (fun q => q = .alnum) .start s

/-- The repository path of `NameRegexp`: name components separated by single slashes. -/
def pathRegexp (s : Str) : Bool := (splitOn '/' s).all nameComponentRegexp

/-- The anchored `domainComponentRegexp`,
`(?:[a-zA-Z0-9]|[a-zA-Z0-9][a-zA-Z0-9-]*[a-zA-Z0-9])`. -/
def domainComponentRegexp (s : Str) : Bool :=
  match s with
  | [] => false
  | c :: cs =>
    c.isAlphanum && (c :: cs).all (fun x => x.isAlphanum || x = '-')
      && ((c :: cs).getLast?.any Char.isAlphanum)

/-- The anchored `DomainRegexp`: domain components separated by periods, then an optional
colon and port number. -/
def DomainRegexp (s : Str) : Bool :=
  match cut ':' s with
  | some (host, port) =>
    (splitOn '.' host).all domainComponentRegexp && !port.isEmpty && port.all Char.isDigit
  | none => (splitOn '.' s).all domainComponentRegexp

/-- The class `\w`. -/
def wordChar (c : Char) : Bool := c.isAlphanum || c = '_'

/-- The anchored `TagRegexp`, `[\w][\w.-]{0,127}`. -/
def anchoredTagRegexp (s : Str) : Bool :=
  match s with
  | [] => false
  | c :: cs =>
    wordChar c && cs.all (fun x => wordChar x || x = '.' || x = '-') && cs.length ≤ 127

/-- The class `[[:xdigit:]]`. -/
def xdigit (c : Char) : Bool :=
  c.isDigit || ('a' ≤ c && c ≤ 'f') || ('A' ≤ c && c ≤ 'F')

/-- States of the automaton of the algorithm part of `DigestRegexp`. -/
inductive AlgState
  | start | inside | sep
deriving DecidableEq, Repr

/-- Transitions for `[A-Za-z][A-Za-z0-9]*(?:[-_+.][A-Za-z][A-Za-z0-9]*)*`. -/
def algStep : AlgState → Char → Option AlgState
  | .start, c => if c.isAlpha then some .inside else none
  | .inside, c =>
    if c.isAlphanum then some .inside
    else if c = '-' ∨ c = '_' ∨ c = '+' ∨ c = '.' then some .sep
    else none
  | .sep, c => if c.isAlpha then some .inside else none

/-- The anchored `DigestRegexp`,
`[A-Za-z][A-Za-z0-9]*(?:[-_+.][A-Za-z][A-Za-z0-9]*)*[:][[:xdigit:]]{32,}`. -/
def anchoredDigestRegexp (s : Str) : Bool :=
  match cut ':' s with
  | some (alg, hex) =>
    runDFA algStep (fun q => q = .inside) .start alg && hex.all xdigit && 32 ≤ hex.length
  | none => false

/-- The anchored `IdentifierRegexp`, `([a-f0-9]{64})`. -/
def anchoredIdentifierRegexp (s : Str) : Bool :=
  s.length = 64 && s.all (fun c => c.isDigit || ('a' ≤ c && c ≤ 'f'))

/-- The captures of `anchoredNameRegexp`, domain and path.  The optional domain group is
tried first; when it takes part, the domain is the text before the first slash. -/
def anchoredNameRegexp (s : Str) : Option (Str × Str) :=
  match cut '/' s with
  | some (d, p) =>
    if DomainRegexp d && pathRegexp p then some (d, p)
    else if pathRegexp s then some ([], s) else none
  | none => if pathRegexp s then some ([], s) else none

/-- The captures of `ReferenceRegexp`: name, tag and digest, the last two empty when
their group takes no part.  The digest is what follows the `@`; the tag is what follows
the last colon, unless a slash comes after that colon (it then belongs to a port). -/
def ReferenceRegexp (s : Str) : Option (Str × Str × Str) :=
  let (left, digest) :=
    match cut '@' s with
    | some (l, d) => (l, some d)
    | none => (s, none)
  let (name, tag) :=
    match cutLast ':' left with
    | some (nm, t) => if '/' ∈ t then (left, none) else (nm, some t)
    | none => (left, none)
  if (anchoredNameRegexp name).isSome && tag.all anchoredTagRegexp
      && digest.all anchoredDigestRegexp then
    some (name, tag.getD [], digest.getD [])
  else none

/-! ## Package `reference` (`reference.go`, `normalize.go`) and `go-digest` -/

/-- Errors: the error values of package `reference`, the three of `go-digest` that
`digest.Parse` returns (`checksum...`), and the two wrapped errors made by `Name.WithTag`
and `Name.WithDigest`. -/
inductive Err
  | referenceInvalidFormat
  | tagInvalidFormat
  | digestInvalidFormat
  | nameContainsUppercase
  | nameEmpty
  | nameTooLong
  | identifier (s : Str)
  | notLowercase
  | checksumInvalidFormat
  | checksumInvalidLength
  | checksumUnsupported
  | applyTag (tag name : Str) (cause : Err)
  | applyDigest (digest name : Str) (cause : Err)
deriving DecidableEq, Repr

/-- The text of an error (`err.Error()`). -/
def Err.Error : Err → Str
  | .referenceInvalidFormat => "invalid reference format".toList
  | .tagInvalidFormat => "invalid tag format".toList
  | .digestInvalidFormat => "invalid digest format".toList
  | .nameContainsUppercase => "repository name must be lowercase".toList
  | .nameEmpty => "repository name must have at least one component".toList
  | .nameTooLong => "repository name must not be more than 255 characters".toList
  | .identifier s =>
    "invalid repository name (".toList ++ s
      ++ "), cannot specify 64-byte hexadecimal strings".toList
  | .notLowercase => "invalid reference format: repository name must be lowercase".toList
  | .checksumInvalidFormat => "invalid checksum digest format".toList
  | .checksumInvalidLength => "invalid checksum digest length".toList
  | .checksumUnsupported => "unsupported digest algorithm".toList
  | .applyTag tag name cause =>
    "Cannot apply tag ".toList ++ tag ++ " to image.Name ".toList ++ name
      ++ ": ".toList ++ cause.Error
  | .applyDigest digest name cause =>
    "Cannot apply digest ".toList ++ digest ++ " to image.Name ".toList ++ name
      ++ ": ".toList ++ cause.Error

/-- `NameTotalLengthMax`. -/
def NameTotalLengthMax : Nat := 255

def legacyDefaultDomain : Str := "index.docker.io".toList

def defaultDomain : Str := "docker.io".toList

def officialRepoName : Str := "library".toList

/-- The values of interface `reference.Named` that the package builds: `repository`,
`taggedReference`, `canonicalReference` and `reference`, each with the domain and path
of its repository. -/
inductive Named
  | repository (domain path : Str)
  | taggedReference (domain path tag : Str)
  | canonicalReference (domain path digest : Str)
  | reference (domain path tag digest : Str)
deriving DecidableEq, Repr

namespace Named

def Domain : Named → Str
  | repository d _ => d
  | taggedReference d _ _ => d
  | canonicalReference d _ _ => d
  | reference d _ _ _ => d

def Path : Named → Str
  | repository _ p => p
  | taggedReference _ p _ => p
  | canonicalReference _ p _ => p
  | reference _ p _ _ => p

/-- `repository.Name`: the path alone without a domain, else domain, slash, path. -/
def Name (r : Named) : Str :=
  if r.Domain = [] then r.Path else r.Domain ++ '/' :: r.Path

/-- The type assertion to `reference.Tagged`, with the tag. -/
def asTagged : Named → Option Str
  | taggedReference _ _ t => some t
  | reference _ _ t _ => some t
  | _ => none

/-- The type assertion to `reference.Digested` (and `reference.Canonical`), with the
digest. -/
def asDigested : Named → Option Str
  | canonicalReference _ _ d => some d
  | reference _ _ _ d => some d
  | _ => none

def String : Named → Str
  | repository d p => (repository d p).Name
  | taggedReference d p t => (repository d p).Name ++ ':' :: t
  | canonicalReference d p g => (repository d p).Name ++ '@' :: g
  | reference d p t g => (repository d p).Name ++ ':' :: t ++ '@' :: g

end Named

/-- Transitions for the algorithm part `[a-z0-9]+(?:[.+_-][a-z0-9]+)*` of the
`DigestRegexp` of `go-digest`. -/
def checksumAlgStep : AlgState → Char → Option AlgState
  | .start, c => if alphaNumeric c then some .inside else none
  | .inside, c =>
    if alphaNumeric c then some .inside
    else if c = '.' ∨ c = '+' ∨ c = '_' ∨ c = '-' then some .sep
    else none
  | .sep, c => if alphaNumeric c then some .inside else none

/-- The `DigestRegexpAnchored` of `go-digest`,
`^[a-z0-9]+(?:[.+_-][a-z0-9]+)*:[a-zA-Z0-9=_-]+$`. -/
def DigestRegexpAnchored (s : Str) : Bool :=
  match cut ':' s with
  | some (alg, encoded) =>
    runDFA checksumAlgStep (fun q => q = .inside) .start alg && !encoded.isEmpty
      && encoded.all (fun c => c.isAlphanum || c = '=' || c = '_' || c = '-')
  | none => false

/-- `digest.Parse`, that is `Digest.Validate` of `go-digest` (release 1.0.0), with the
algorithms `sha256`, `sha384` and `sha512` available: the text after the colon must be
as many lower-case hex digits as the algorithm has. -/
def digestParse (s : Str) : Except Err Unit :=
  match cut ':' s with
  | none => .error .checksumInvalidFormat
  | some (alg, encoded) =>
    if alg = [] ∨ encoded = [] then .error .checksumInvalidFormat
    else
      let size : Option Nat :=
        if alg = "sha256".toList then some 64
        else if alg = "sha384".toList then some 96
        else if alg = "sha512".toList then some 128
        else none
      match size with
      | none =>
        if !DigestRegexpAnchored s then .error .checksumInvalidFormat
        else .error .checksumUnsupported
      | some n =>
        if goLen encoded ≠ n then .error .checksumInvalidLength
        else if encoded.all (fun c => c.isDigit || ('a' ≤ c && c ≤ 'f')) then .ok ()
        else .error .checksumInvalidFormat

/-- `getBestReferenceType`; `none` where the Go code returns no `Named` value. -/
def getBestReferenceType (domain path tag digest : Str) : Option Named :=
  if (Named.repository domain path).Name = [] then none
  else if tag = [] then
    if digest ≠ [] then some (.canonicalReference domain path digest)
    else some (.repository domain path)
  else if digest = [] then some (.taggedReference domain path tag)
  else some (.reference domain path tag digest)

/-- `reference.Parse`, for a result that is a `Named`. -/
def Parse (s : Str) : Except Err Named :=
  match ReferenceRegexp s with
  | none =>
    if s = [] then .error .nameEmpty
    else if (ReferenceRegexp (toLower s)).isSome then .error .nameContainsUppercase
    else .error .referenceInvalidFormat
  | some (name, tag, digest) =>
    if goLen name > NameTotalLengthMax then .error .nameTooLong
    else
      let repo : Str × Str :=
        match anchoredNameRegexp name with
        | some dp => dp
        | none => ([], name)
      match (if digest ≠ [] then digestParse digest else .ok ()) with
      | .error e => .error e
      | .ok () =>
        match getBestReferenceType repo.1 repo.2 tag digest with
        | some r => .ok r
        | none => .error .nameEmpty

/-- `splitDockerDomain`. -/
def splitDockerDomain (name : Str) : Str × Str :=
  let (domain, remainder) :=
    match cut '/' name with
    | none => (defaultDomain, name)
    | some (d, r) =>
      if !(d.any (fun c => c = '.' || c = ':')) && d ≠ "localhost".toList then
        (defaultDomain, name)
      else (d, r)
  let domain := if domain = legacyDefaultDomain then defaultDomain else domain
  let remainder :=
    if domain = defaultDomain ∧ '/' ∉ remainder then officialRepoName ++ '/' :: remainder
    else remainder
  (domain, remainder)

/-- `reference.ParseNormalizedNamed`. -/
def ParseNormalizedNamed (s : Str) : Except Err Named :=
  if anchoredIdentifierRegexp s then .error (.identifier s)
  else
    let (domain, remainder) := splitDockerDomain s
    let remoteName :=
      match cut ':' remainder with
      | some (before, _) => before
      | none => remainder
    if toLower remoteName ≠ remoteName then .error .notLowercase
    else Parse (domain ++ '/' :: remainder)

/-- `reference.WithName`. -/
def WithName (name : Str) : Except Err Named :=
  if goLen name > NameTotalLengthMax then .error .nameTooLong
  else
    match anchoredNameRegexp name with
    | some (d, p) => .ok (.repository d p)
    | none => .error .referenceInvalidFormat

/-- `reference.WithTag`. -/
def WithTag (name : Named) (tag : Str) : Except Err Named :=
  if !anchoredTagRegexp tag then .error .tagInvalidFormat
  else
    match name.asDigested with
    | some g => .ok (.reference name.Domain name.Path tag g)
    | none => .ok (.taggedReference name.Domain name.Path tag)

/-- `reference.WithDigest`. -/
def WithDigest (name : Named) (digest : Str) : Except Err Named :=
  if !anchoredDigestRegexp digest then .error .digestInvalidFormat
  else
    match name.asTagged with
    | some t => .ok (.reference name.Domain name.Path t digest)
    | none => .ok (.canonicalReference name.Domain name.Path digest)

/-- `splitDomain`: the captures of `anchoredNameRegexp`, or no domain and the whole name. -/
def splitDomain (name : Str) : Str × Str :=
  match anchoredNameRegexp name with
  | some dp => dp
  | none => ([], name)

/-- `reference.TrimNamed` applied to a value that is not a `namedRepository` (such as an
`image.Name`), of which only `Name()` is used. -/
def TrimNamed (name : Str) : Named :=
  .repository (splitDomain name).1 (splitDomain name).2

/-! ## `pkg/image/name.go` -/

/-- Modelled from the spec: type `Digest` of this package (`digest.go`), which "wraps a
content-hash string", is built "from a raw string (no validation performed at this
layer)" and whose `String()` "returns the raw value unchanged". -/
structure Digest where
  dig : Str
deriving DecidableEq, Repr

/-- Modelled from the spec: `NewDigest`, see `Digest`. -/
def NewDigest (s : Str) : Digest := ⟨s⟩

/-- Modelled from the spec: `EmptyDigest`, "the empty Digest is a distinguished
singleton". -/
def EmptyDigest : Digest := ⟨[]⟩

def Digest.String (d : Digest) : Str := d.dig

def dockerHubHost : Str := "docker.io".toList

def fullDockerHubHost : Str := "index.docker.io".toList

/-- Ways a call can panic. -/
inductive Panic
  /-- A method was called on the nil reference of the empty name. -/
  | nilDereference
  /-- The `panic(err)` of `Normalize`. -/
  | error (e : Err)
  /-- The recursion budget given to `parseHostPath` ran out. -/
  | fuel
deriving DecidableEq, Repr

/-- `Name` is a named image reference; `ref` is `none` for the nil reference. -/
structure Name where
  ref : Option Named
deriving DecidableEq, Repr

def EmptyName : Name := ⟨none⟩

def NewName (i : Str) : Except Err Name :=
  match ParseNormalizedNamed i with
  | .ok ref => .ok ⟨some ref⟩
  | .error e => .error e

def Name.String (img : Image.Name) : Str :=
  match img.ref with
  | none => []
  | some r => r.String

def Name.Normalize (img : Image.Name) : Except Panic Image.Name :=
  match img.ref with
  | none => .ok EmptyName
  | some _ =>
    match NewName img.String with
    | .ok ref => .ok ref
    | .error err => .error (.error err)

def Name.Name (img : Image.Name) : Except Panic Str :=
  match img.ref with
  | none => .error .nilDereference
  | some r => .ok r.Name

def Name.parseHostPath : Nat → Image.Name → Except Panic (Str × Str)
  | 0, _ => .error .fuel
  | fuel + 1, img =>
    match img.Name with
    | .error p => .error p
    | .ok name =>
      match cut '/' name with
      | some (host, repoPath) => .ok (host, repoPath)
      | none =>
        match img.Normalize with
        | .error p => .error p
        | .ok n => parseHostPath fuel n

def Name.Host (fuel : Nat) (img : Image.Name) : Except Panic Str :=
  (parseHostPath fuel img).map Prod.fst

def Name.Path (fuel : Nat) (img : Image.Name) : Except Panic Str :=
  (parseHostPath fuel img).map Prod.snd

def Name.Tag (img : Image.Name) : Str :=
  match img.ref.bind Named.asTagged with
  | some t => t
  | none => []

def Name.Digest (img : Image.Name) : Image.Digest :=
  match img.ref.bind Named.asDigested with
  | some d => NewDigest d
  | none => EmptyDigest

/-- `Name.WithTag`.  The result is the pair `(Name, error)` that Go returns, with `none`
for the nil error, or a panic: on the nil reference `reference.WithTag` returns its error
for a bad tag before it dereferences the name. -/
def Name.WithTag (img : Image.Name) (tag : Str) : Except Panic (Image.Name × Option Err) :=
  match img.ref with
  | none =>
    if !anchoredTagRegexp tag then
      .ok (EmptyName, some (.applyTag tag img.String .tagInvalidFormat))
    else .error .nilDereference
  | some r =>
    match Image.WithTag r tag with
    | .error err => .ok (EmptyName, some (.applyTag tag img.String err))
    | .ok namedTagged => .ok (⟨some namedTagged⟩, none)

def Name.WithoutTag (img : Image.Name) : Except Panic Image.Name :=
  match img.Name with
  | .error p => .error p
  | .ok name => .ok ⟨some (TrimNamed name)⟩

/-- `Name.WithDigest`, with the results of `Name.WithTag`. -/
def Name.WithDigest (img : Image.Name) (digest : Image.Digest) :
    Except Panic (Image.Name × Option Err) :=
  match img.ref with
  | none =>
    if !anchoredDigestRegexp digest.dig then
      .ok (EmptyName, some (.applyDigest digest.String img.String .digestInvalidFormat))
    else .error .nilDereference
  | some r =>
    match Image.WithDigest r digest.dig with
    | .error err => .ok (EmptyName, some (.applyDigest digest.String img.String err))
    | .ok digested => .ok (⟨some digested⟩, none)

def Name.WithoutDigest (img : Image.Name) : Except Panic Str :=
  match img.Name with
  | .error p => .error p
  | .ok name =>
    match cut '@' name with
    | some (before, _) => .ok before
    | none => .ok name

def synonym (original : Name) (newName : Str) : Except Err Name :=
  match WithName newName with
  | .error err => .error err
  | .ok named =>
    let tagged : Except Err Named :=
      match original.ref.bind Named.asTagged with
      | some t => WithTag named t
      | none => .ok named
    match tagged with
    | .error err => .error err
    | .ok named =>
      let digested : Except Err Named :=
        match original.ref.bind Named.asDigested with
        | some d => WithDigest named d
        | none => .ok named
      match digested with
      | .error err => .error err
      | .ok named => .ok ⟨some named⟩

/-- The statement `if err == nil { nameMap[name] = struct{}{} }`: the keys of the map
are kept as a list without repetition. -/
def addName (nameMap : List Name) (r : Except Err Name) : List Name :=
  match r with
  | .ok name => if name ∈ nameMap then nameMap else nameMap ++ [name]
  | .error _ => nameMap

/-- `Name.Synonyms`.  The result lists the keys of `nameMap` in the order of their
insertion; Go fixes no order. -/
def Name.Synonyms (fuel : Nat) (img : Image.Name) : Except Panic (List Image.Name) :=
  match img.ref with
  | none => .ok [EmptyName]
  | some _ =>
    match img.parseHostPath fuel with
    | .error p => .error p
    | .ok (imgHost, imgRepoPath) =>
      let nameMap := [img]
      if imgHost = dockerHubHost then
        let elidedImg := imgRepoPath
        let nameMap := addName nameMap (synonym img elidedImg)
        let elidedImgElements := splitOn '/' elidedImg
        let nameMap :=
          if elidedImgElements.length = 2 ∧ elidedImgElements.head? = some "library".toList then
            addName nameMap (synonym img (elidedImgElements.getD 1 []))
          else nameMap
        let fullImg := pathJoin fullDockerHubHost imgRepoPath
        let nameMap := addName nameMap (synonym img fullImg)
        let dockerImg := pathJoin dockerHubHost imgRepoPath
        let nameMap := addName nameMap (synonym img dockerImg)
        .ok nameMap
      else .ok nameMap

/-! ## `pkg/image/id.go` -/

/-- `Id` is an image id, represented as a digest string. -/
structure Id where
  dig : Str
deriving DecidableEq, Repr

def EmptyId : Id := ⟨[]⟩

def NewId (id : Str) : Id := ⟨id⟩

def Id.String (id : Id) : Str := id.dig

/-- `Id.Filename`: `strings.Replace(id.String(), ":", "-", -1)`. -/
def Id.Filename (id : Id) : Str := id.String.map (fun c => if c = ':' then '-' else c)

deriving instance DecidableEq for Except

/-! ## Auxiliary definitions used in the statements -/

/-- The text the name, tag and digest captures of `ReferenceRegexp` were cut from. -/
def assemble (name tag digest : Str) : Str :=
  name ++ (if tag = [] then [] else ':' :: tag) ++ (if digest = [] then [] else '@' :: digest)

/-- What `splitDockerDomain` guarantees of its result: the domain has no slash, looks
like a host, is not the legacy host, and the default host comes with a path of at least
two segments. -/
def SplitOK (D R : Str) : Prop :=
  '/' ∉ D ∧ (D.any (fun c => c = '.' || c = ':') = true ∨ D = "localhost".toList)
    ∧ D ≠ legacyDefaultDomain ∧ (D = defaultDomain → '/' ∈ R)

/-- The reference with the given repository, tag and digest, if any. -/
def retag (d p : Str) : Option Str → Option Str → Named
  | none, none => .repository d p
  | some t, none => .taggedReference d p t
  | none, some g => .canonicalReference d p g
  | some t, some g => .reference d p t g

/-- The invariant of the references this package builds: domain and path are the captures
of the name they print, the name has at most `NameTotalLengthMax` bytes, and a tag or
digest that is present matches its expression. -/
def Named.wellFormed (r : Named) : Bool :=
  decide (anchoredNameRegexp r.Name = some (r.Domain, r.Path))
    && decide (goLen r.Name ≤ NameTotalLengthMax)
    && r.asTagged.all anchoredTagRegexp && r.asDigested.all anchoredDigestRegexp

/-- The invariant of `Named.wellFormed` for a name; the empty name has it. -/
def Name.wellFormed (n : Image.Name) : Bool := n.ref.all Named.wellFormed

/-- A path element that `path.Clean` keeps as it is. -/
def plain (e : Str) : Prop := e ≠ [] ∧ e ≠ ['.'] ∧ e ≠ ['.', '.']

/-- The suffix `[:tag][@digest]` of a name, from its accessors. -/
def Name.suffix (n : Image.Name) : Str :=
  (if n.Tag = [] then [] else ':' :: n.Tag)
    ++ (if n.Digest.String = [] then [] else '@' :: n.Digest.String)

/-- The candidate spellings for a repository path `p` on `docker.io`: `p`,
`index.docker.io/p`, `docker.io/p` and, when `p` is `library/q` with `q` a single
segment, `q`. -/
def candidates (p : Str) : List Str :=
  [p, "index.docker.io/".toList ++ p, "docker.io/".toList ++ p]
    ++ (match cut '/' p with
        | some (a, q) => if a = "library".toList ∧ '/' ∉ q then [q] else []
        | none => [])

/-! ## Lemmas on the string functions and the grammar -/

theorem cut_eq_some {c : Char} : ∀ {s a b : Str}, cut c s = some (a, b) → s = a ++ c :: b ∧ c ∉ a
  | [], a, b, h => by simp [cut] at h
  | x :: xs, a, b, h => by
    unfold cut at h
    split at h
    · rename_i hx
      simp at h
      obtain ⟨rfl, rfl⟩ := h
      simp [hx]
    · rename_i hx
      cases hc : cut c xs with
      | none => simp [hc] at h
      | some ab =>
        obtain ⟨a', b'⟩ := ab
        simp [hc] at h
        obtain ⟨rfl, rfl⟩ := h
        obtain ⟨h1, h2⟩ := cut_eq_some hc
        subst h1
        refine ⟨by simp, ?_⟩
        simp only [List.mem_cons, not_or]
        exact ⟨fun e => hx e.symm, h2⟩

theorem cut_eq_none {c : Char} : ∀ {s : Str}, cut c s = none ↔ c ∉ s
  | [] => by simp [cut]
  | x :: xs => by
    unfold cut
    by_cases hx : x = c
    · simp [hx]
    · have ih := @cut_eq_none c xs
      simp only [hx, if_false, Option.map_eq_none', ih, List.mem_cons, not_or]
      exact ⟨fun h => ⟨fun e => hx e.symm, h⟩, fun h => h.2⟩

theorem cut_append {c : Char} : ∀ {a : Str} (b : Str), c ∉ a → cut c (a ++ c :: b) = some (a, b)
  | [], b, _ => by simp [cut]
  | x :: xs, b, h => by
    simp only [List.mem_cons, not_or] at h
    have hx : x ≠ c := fun e => h.1 e.symm
    simp [cut, hx, cut_append b h.2]

theorem cutLast_eq_some {c : Char} :
    ∀ {s a b : Str}, cutLast c s = some (a, b) → s = a ++ c :: b ∧ c ∉ b
  | [], a, b, h => by simp [cutLast] at h
  | x :: xs, a, b, h => by
    unfold cutLast at h
    cases hc : cutLast c xs with
    | some ab =>
      obtain ⟨a', b'⟩ := ab
      simp [hc] at h
      obtain ⟨rfl, rfl⟩ := h
      obtain ⟨h1, h2⟩ := cutLast_eq_some hc
      subst h1
      exact ⟨by simp, h2⟩
    | none =>
      simp only [hc] at h
      split at h
      · rename_i hx
        simp at h
        obtain ⟨rfl, rfl⟩ := h
        refine ⟨by simp [hx], ?_⟩
        intro hmem
        have : ∀ {t : Str}, cutLast c t = none → c ∉ t := by
          intro t
          induction t with
          | nil => simp
          | cons y ys ih =>
            intro hn
            unfold cutLast at hn
            cases hys : cutLast c ys with
            | some ab => simp [hys] at hn
            | none =>
              simp only [hys] at hn
              split at hn
              · simp at hn
              · rename_i hy
                simp only [List.mem_cons, not_or]
                exact ⟨fun e => hy e.symm, ih hys⟩
        exact this hc hmem
      · simp at h

theorem DomainRegexp_nil : DomainRegexp [] = false := by decide

theorem anchoredNameRegexp_name {s d p : Str} (h : anchoredNameRegexp s = some (d, p)) :
    (Named.repository d p).Name = s := by
  unfold anchoredNameRegexp at h
  cases hc : cut '/' s with
  | none =>
    simp only [hc] at h
    split at h
    · simp at h
      obtain ⟨rfl, rfl⟩ := h
      simp [Named.Name, Named.Domain, Named.Path]
    · simp at h
  | some ab =>
    obtain ⟨a, b⟩ := ab
    simp only [hc] at h
    obtain ⟨hs, -⟩ := cut_eq_some hc
    split at h
    · rename_i hd
      simp at h
      obtain ⟨rfl, rfl⟩ := h
      have hne : a ≠ [] := by
        rintro rfl
        simp [DomainRegexp_nil] at hd
      simp [Named.Name, Named.Domain, Named.Path, hne, hs]
    · split at h
      · simp at h
        obtain ⟨rfl, rfl⟩ := h
        simp [Named.Name, Named.Domain, Named.Path]
      · simp at h

theorem ReferenceRegexp_spec {s n t g : Str} (h : ReferenceRegexp s = some (n, t, g)) :
    (anchoredNameRegexp n).isSome ∧ (t = [] ∨ anchoredTagRegexp t = true)
      ∧ (g = [] ∨ anchoredDigestRegexp g = true) ∧ s = assemble n t g := by
  unfold ReferenceRegexp at h
  have hT : anchoredTagRegexp [] = false := by decide
  have hG : anchoredDigestRegexp [] = false := by decide
  cases hc : cut '@' s with
  | none =>
    simp only [hc] at h
    cases hl : cutLast ':' s with
    | none =>
      simp [hl] at h
      obtain ⟨hn, rfl, rfl, rfl⟩ := h
      simp [assemble, hn]
    | some ab =>
      obtain ⟨a, b⟩ := ab
      simp only [hl] at h
      obtain ⟨hs, -⟩ := cutLast_eq_some hl
      by_cases hb : '/' ∈ b
      · simp [hb] at h
        obtain ⟨hn, rfl, rfl, rfl⟩ := h
        simp [assemble, hn]
      · simp [hb] at h
        obtain ⟨⟨hn, ht⟩, rfl, rfl, rfl⟩ := h
        have : b ≠ [] := by rintro rfl; simp [hT] at ht
        simp [assemble, hn, ht, this, hs]
  | some lg =>
    obtain ⟨l, g'⟩ := lg
    simp only [hc] at h
    obtain ⟨hs, -⟩ := cut_eq_some hc
    cases hl : cutLast ':' l with
    | none =>
      simp [hl] at h
      obtain ⟨⟨hn, hg⟩, rfl, rfl, rfl⟩ := h
      have : g' ≠ [] := by rintro rfl; simp [hG] at hg
      simp [assemble, hn, hg, this, hs]
    | some ab =>
      obtain ⟨a, b⟩ := ab
      simp only [hl] at h
      obtain ⟨hs', -⟩ := cutLast_eq_some hl
      by_cases hb : '/' ∈ b
      · simp [hb] at h
        obtain ⟨⟨hn, hg⟩, rfl, rfl, rfl⟩ := h
        have : g' ≠ [] := by rintro rfl; simp [hG] at hg
        simp [assemble, hn, hg, this, hs]
      · simp [hb] at h
        obtain ⟨⟨⟨hn, ht⟩, hg⟩, rfl, rfl, rfl⟩ := h
        have h1 : b ≠ [] := by rintro rfl; simp [hT] at ht
        have h2 : g' ≠ [] := by rintro rfl; simp [hG] at hg
        simp [assemble, hn, ht, hg, h1, h2, hs, hs']

theorem getBestReferenceType_String {d p t g : Str} {r : Named}
    (h : getBestReferenceType d p t g = some r) :
    r.String = assemble (Named.repository d p).Name t g := by
  unfold getBestReferenceType at h
  split at h
  · simp at h
  · by_cases ht : t = [] <;> by_cases hg : g = [] <;> simp [ht, hg] at h <;> subst h <;>
      simp [Named.String, assemble, ht, hg]

theorem Parse_String {s : Str} {r : Named} (h : Parse s = .ok r) : r.String = s := by
  unfold Parse at h
  cases hR : ReferenceRegexp s with
  | none =>
    simp only [hR] at h
    split at h
    · simp at h
    · split at h <;> simp at h
  | some ntg =>
    obtain ⟨n, t, g⟩ := ntg
    simp only [hR] at h
    obtain ⟨hn, -, -, hs⟩ := ReferenceRegexp_spec hR
    split at h
    · simp at h
    · cases hA : anchoredNameRegexp n with
      | none => simp [hA] at hn
      | some dp =>
        obtain ⟨d, p⟩ := dp
        simp only [hA] at h
        split at h
        · simp at h
        · split at h
          · rename_i r' hb
            simp at h
            subst h
            rw [getBestReferenceType_String hb, anchoredNameRegexp_name hA, hs]
          · simp at h

theorem splitDockerDomain_ok (s : Str) :
    SplitOK (splitDockerDomain s).1 (splitDockerDomain s).2 := by
  have hdef : SplitOK defaultDomain (officialRepoName ++ '/' :: s) ∧
      ('/' ∈ s → SplitOK defaultDomain s) := by
    refine ⟨⟨by decide, Or.inl (by decide), by decide, fun _ => by simp⟩, fun hs =>
      ⟨by decide, Or.inl (by decide), by decide, fun _ => hs⟩⟩
  unfold splitDockerDomain
  cases hc : cut '/' s with
  | none =>
    have : '/' ∉ s := cut_eq_none.1 hc
    simp [this, show defaultDomain ≠ legacyDefaultDomain by decide, hdef.1]
  | some dr =>
    obtain ⟨d, r⟩ := dr
    obtain ⟨hs, hd⟩ := cut_eq_some hc
    have hmem : '/' ∈ s := by rw [hs]; simp
    by_cases hcond : (!(d.any (fun c => c = '.' || c = ':')) && decide (d ≠ "localhost".toList)) = true
    · simp only [hcond, if_true]
      simp [hmem, show defaultDomain ≠ legacyDefaultDomain by decide, hdef.2 hmem]
    · simp only [hcond]
      have hdom : d.any (fun c => c = '.' || c = ':') = true ∨ d = "localhost".toList := by
        by_contra hno
        push_neg at hno
        apply hcond
        have h2 := hno.2
        simp [hno.1]
        exact h2
      by_cases hleg : d = legacyDefaultDomain
      · simp only [hleg, if_true]
        by_cases hr : '/' ∈ r
        · simp [hr]
          exact ⟨by decide, Or.inl (by decide), by decide, fun _ => hr⟩
        · simp [hr]
          exact hdef.1.elim (fun a b => ⟨a, b.1, b.2.1, fun _ => by simp⟩)
      · simp only [Bool.false_eq_true, if_false, hleg]
        by_cases hdd : d = defaultDomain
        · by_cases hr : '/' ∈ r
          · simp [hdd, hr]
            exact ⟨by decide, Or.inl (by decide), by decide, fun _ => hr⟩
          · simp [hdd, hr]
            exact ⟨by decide, Or.inl (by decide), by decide, fun _ => by simp⟩
        · simp [hdd]
          exact ⟨hd, hdom, hleg, fun e => absurd e hdd⟩

theorem splitDockerDomain_fix {D R : Str} (h : SplitOK D R) :
    splitDockerDomain (D ++ '/' :: R) = (D, R) := by
  obtain ⟨h1, h2, h3, h4⟩ := h
  unfold splitDockerDomain
  rw [cut_append R h1]
  have hcond : (!(D.any (fun c => c = '.' || c = ':')) && decide (D ≠ "localhost".toList)) = false := by
    rcases h2 with h2 | h2
    · simp [h2]
    · simp [h2]
  simp only [hcond, Bool.false_eq_true, if_false, h3]
  by_cases hdd : D = defaultDomain
  · simp [hdd, h4 hdd]
  · simp [hdd]

theorem anchoredIdentifierRegexp_slash {s : Str} (h : '/' ∈ s) :
    anchoredIdentifierRegexp s = false := by
  unfold anchoredIdentifierRegexp
  have : s.all (fun c => c.isDigit || (decide ('a' ≤ c) && decide (c ≤ 'f'))) = false := by
    rw [List.all_eq_false]
    exact ⟨'/', h, by decide⟩
  simp [this]

theorem ParseNormalizedNamed_String {s : Str} {r : Named} (h : ParseNormalizedNamed s = .ok r) :
    ParseNormalizedNamed r.String = .ok r := by
  unfold ParseNormalizedNamed at h
  split at h
  · simp at h
  · have hok := splitDockerDomain_ok s
    revert h hok
    generalize splitDockerDomain s = DR
    obtain ⟨D, R⟩ := DR
    intro h hok
    simp only at h hok
    split at h
    · simp at h
    · rename_i hlow
      have hstr := Parse_String h
      rw [hstr]
      unfold ParseNormalizedNamed
      rw [anchoredIdentifierRegexp_slash (by simp), splitDockerDomain_fix hok]
      simp only [Bool.false_eq_true, if_false]
      rw [if_neg hlow]
      exact h

theorem NewName_String {i : Str} {n : Name} (h : NewName i = .ok n) :
    NewName n.String = .ok n := by
  unfold NewName at h
  cases hp : ParseNormalizedNamed i with
  | error e => simp [hp] at h
  | ok r =>
    simp [hp] at h
    subst h
    simp [Name.String, NewName, ParseNormalizedNamed_String hp]

theorem NewName_ref {i : Str} {n : Name} (h : NewName i = .ok n) : ∃ r, n.ref = some r := by
  unfold NewName at h
  cases hp : ParseNormalizedNamed i with
  | error e => simp [hp] at h
  | ok r =>
    simp [hp] at h
    exact ⟨r, by rw [← h]⟩

theorem Normalize_of_NewName {i : Str} {n : Name} (h : NewName i = .ok n) :
    n.Normalize = .ok n := by
  obtain ⟨r, hr⟩ := NewName_ref h
  unfold Name.Normalize
  simp [hr, NewName_String h]

theorem addName_mem {m : List Name} {r : Except Err Name} {x : Name} (h : x ∈ addName m r) :
    x ∈ m ∨ r = .ok x := by
  unfold addName at h
  cases r with
  | error e => exact Or.inl h
  | ok y =>
    simp only at h
    split at h
    · exact Or.inl h
    · simp at h
      rcases h with h | h
      · exact Or.inl h
      · exact Or.inr (by rw [h])

theorem WithName_eq {c : Str} {r : Named} (h : WithName c = .ok r) :
    goLen c ≤ NameTotalLengthMax ∧
      ∃ d p, anchoredNameRegexp c = some (d, p) ∧ r = .repository d p := by
  unfold WithName at h
  split at h
  · simp at h
  · rename_i hl
    refine ⟨by omega, ?_⟩
    split at h
    · rename_i d p hA
      simp at h
      exact ⟨d, p, hA, h.symm⟩
    · simp at h

theorem synonym_iff {n s : Name} {c : Str} :
    synonym n c = .ok s ↔
      ∃ d p, WithName c = .ok (.repository d p)
        ∧ (∀ t, n.ref.bind Named.asTagged = some t → anchoredTagRegexp t = true)
        ∧ (∀ g, n.ref.bind Named.asDigested = some g → anchoredDigestRegexp g = true)
        ∧ s = ⟨some (retag d p (n.ref.bind Named.asTagged) (n.ref.bind Named.asDigested))⟩ := by
  unfold synonym
  generalize n.ref.bind Named.asTagged = tag
  generalize n.ref.bind Named.asDigested = dig
  cases hw : WithName c with
  | error e => simp
  | ok named =>
    obtain ⟨-, d, p, -, rfl⟩ := WithName_eq hw
    cases tag with
    | none =>
      cases dig with
      | none =>
        simp [retag]
        exact ⟨fun h => ⟨d, p, ⟨rfl, rfl⟩, h.symm⟩, fun ⟨_, _, ⟨h1, h2⟩, h⟩ => by subst h1 h2; exact h.symm⟩
      | some g =>
        by_cases hg : anchoredDigestRegexp g = true
        · simp [retag, WithDigest, hg, Named.asTagged, Named.Domain, Named.Path]
          exact ⟨fun h => ⟨d, p, ⟨rfl, rfl⟩, h.symm⟩, fun ⟨_, _, ⟨h1, h2⟩, h⟩ => by subst h1 h2; exact h.symm⟩
        · simp [retag, WithDigest, hg, Named.asTagged, Named.Domain, Named.Path]
    | some t =>
      by_cases ht : anchoredTagRegexp t = true
      · cases dig with
        | none =>
          simp [retag, WithTag, ht, Named.asDigested, Named.Domain, Named.Path]
          exact ⟨fun h => ⟨d, p, ⟨rfl, rfl⟩, h.symm⟩, fun ⟨_, _, ⟨h1, h2⟩, h⟩ => by subst h1 h2; exact h.symm⟩
        | some g =>
          by_cases hg : anchoredDigestRegexp g = true
          · simp [retag, WithTag, WithDigest, ht, hg, Named.asTagged, Named.asDigested,
              Named.Domain, Named.Path]
            exact ⟨fun h => ⟨d, p, ⟨rfl, rfl⟩, h.symm⟩, fun ⟨_, _, ⟨h1, h2⟩, h⟩ => by subst h1 h2; exact h.symm⟩
          · simp [retag, WithTag, WithDigest, ht, hg, Named.asTagged, Named.asDigested,
              Named.Domain, Named.Path]
      · simp [retag, WithTag, ht, Named.asDigested, Named.Domain, Named.Path]

theorem retag_asTagged (d p : Str) (t g : Option Str) : (retag d p t g).asTagged = t := by
  cases t <;> cases g <;> rfl

theorem retag_asDigested (d p : Str) (t g : Option Str) : (retag d p t g).asDigested = g := by
  cases t <;> cases g <;> rfl

theorem synonym_tag_digest {n s : Name} {c : Str} (h : synonym n c = .ok s) :
    s.Tag = n.Tag ∧ s.Digest = n.Digest := by
  obtain ⟨d, p, -, -, -, rfl⟩ := synonym_iff.1 h
  simp [Name.Tag, Name.Digest, retag_asTagged, retag_asDigested]

theorem Synonyms_mem {fuel : Nat} {n s : Name} {l : List Name}
    (hl : n.Synonyms fuel = .ok l) (hs : s ∈ l) : s = n ∨ ∃ c, synonym n c = .ok s := by
  unfold Name.Synonyms at hl
  cases hr : n.ref with
  | none =>
    simp [hr] at hl
    subst hl
    simp at hs
    left
    rw [hs]
    cases n
    simp_all [EmptyName]
  | some r =>
    simp only [hr] at hl
    cases hp : n.parseHostPath fuel with
    | error e => simp [hp] at hl
    | ok hp' =>
      obtain ⟨a, b⟩ := hp'
      simp only [hp] at hl
      split at hl
      · simp only [Except.ok.injEq] at hl
        subst hl
        rcases addName_mem hs with hs | hs
        · rcases addName_mem hs with hs | hs
          · split at hs
            · rcases addName_mem hs with hs | hs
              · rcases addName_mem hs with hs | hs
                · left; simpa using hs
                · exact Or.inr ⟨_, hs⟩
              · exact Or.inr ⟨_, hs⟩
            · rcases addName_mem hs with hs | hs
              · left; simpa using hs
              · exact Or.inr ⟨_, hs⟩
          · exact Or.inr ⟨_, hs⟩
        · exact Or.inr ⟨_, hs⟩
      · simp at hl
        subst hl
        left; simpa using hs

theorem Normalize_bind (n : Name) :
    (n.Normalize >>= Name.Normalize) = n.Normalize := by
  cases hr : n.ref with
  | none => simp [Name.Normalize, hr, EmptyName, bind, Except.bind]
  | some r =>
    cases hN : NewName n.String with
    | error e => simp [Name.Normalize, hr, hN, bind, Except.bind]
    | ok m =>
      have : n.Normalize = .ok m := by simp [Name.Normalize, hr, hN]
      rw [this]
      exact Normalize_of_NewName hN

theorem Parse_spec {s : Str} {r : Named} (h : Parse s = .ok r) :
    ∃ n t g d p, ReferenceRegexp s = some (n, t, g) ∧ goLen n ≤ NameTotalLengthMax
      ∧ anchoredNameRegexp n = some (d, p) ∧ getBestReferenceType d p t g = some r := by
  unfold Parse at h
  cases hR : ReferenceRegexp s with
  | none =>
    simp only [hR] at h
    split at h
    · simp at h
    · split at h <;> simp at h
  | some ntg =>
    obtain ⟨n, t, g⟩ := ntg
    simp only [hR] at h
    obtain ⟨hn, -, -, hs⟩ := ReferenceRegexp_spec hR
    split at h
    · simp at h
    · rename_i hlen
      cases hA : anchoredNameRegexp n with
      | none => simp [hA] at hn
      | some dp =>
        obtain ⟨d, p⟩ := dp
        simp only [hA] at h
        split at h
        · simp at h
        · split at h
          · rename_i r' hb
            simp at h
            subst h
            exact ⟨n, t, g, d, p, rfl, by omega, hA, hb⟩
          · simp at h

theorem assemble_colon {n t g : Str} (h : ':' ∉ assemble n t g) : t = [] := by
  by_contra ht
  apply h
  simp [assemble, ht]

theorem assemble_at {n t g : Str} (h : '@' ∉ assemble n t g) : g = [] := by
  by_contra hg
  apply h
  simp [assemble, hg]

theorem splitDockerDomain_bare {p : Str} (h : '/' ∉ p) :
    splitDockerDomain p = (defaultDomain, officialRepoName ++ '/' :: p) := by
  unfold splitDockerDomain
  rw [cut_eq_none.2 h]
  simp [h, show defaultDomain ≠ legacyDefaultDomain by decide]

theorem parseHostPath_of_cut {n : Name} {r : Named} {h p : Str} (fuel : Nat)
    (hr : n.ref = some r) (hc : cut '/' r.Name = some (h, p)) :
    n.parseHostPath (fuel + 1) = .ok (h, p) := by
  simp only [Name.parseHostPath, Name.Name, hr, hc]

theorem splitOn_ne_nil (c : Char) : ∀ s : Str, splitOn c s ≠ []
  | [] => by simp [splitOn]
  | x :: xs => by
    unfold splitOn
    split
    · simp
    · split <;> simp

theorem splitOn_of_cut_none {c : Char} : ∀ {s : Str}, cut c s = none → splitOn c s = [s]
  | [], _ => rfl
  | x :: xs, h => by
    unfold cut at h
    split at h
    · simp at h
    · rename_i hx
      simp only [Option.map_eq_none'] at h
      simp [splitOn, hx, splitOn_of_cut_none h]

theorem splitOn_of_cut_some {c : Char} :
    ∀ {s a b : Str}, cut c s = some (a, b) → splitOn c s = a :: splitOn c b
  | [], _, _, h => by simp [cut] at h
  | x :: xs, a, b, h => by
    unfold cut at h
    split at h
    · rename_i hx
      simp at h
      obtain ⟨rfl, rfl⟩ := h
      simp [splitOn, hx]
    · rename_i hx
      cases hc : cut c xs with
      | none => simp [hc] at h
      | some ab =>
        obtain ⟨a', b'⟩ := ab
        simp [hc] at h
        obtain ⟨rfl, rfl⟩ := h
        simp [splitOn, hx, splitOn_of_cut_some hc]

theorem splitOn_append {c : Char} {a : Str} (b : Str) (h : c ∉ a) :
    splitOn c (a ++ c :: b) = a :: splitOn c b :=
  splitOn_of_cut_some (cut_append b h)

theorem joinWith_cons (c : Char) (a : Str) {l : List Str} (h : l ≠ []) :
    joinWith c (a :: l) = a ++ c :: joinWith c l := by
  cases l with
  | nil => exact absurd rfl h
  | cons b rest => rfl

theorem joinWith_splitOn (c : Char) : ∀ s : Str, joinWith c (splitOn c s) = s
  | [] => rfl
  | x :: xs => by
    have ih := joinWith_splitOn c xs
    unfold splitOn
    split
    · rename_i hx
      rw [joinWith_cons c [] (splitOn_ne_nil c xs), ih, hx]
      rfl
    · split
      · rename_i hnil
        exact absurd hnil (splitOn_ne_nil c xs)
      · rename_i h t heq
        rw [heq] at ih
        cases t with
        | nil =>
          simp only [joinWith] at ih ⊢
          rw [ih]
        | cons b rest =>
          simp only [joinWith] at ih ⊢
          rw [← ih]
          rfl

theorem cleanStep_plain {e : Str} (h : plain e) (rooted : Bool) (stack : List Str) :
    cleanStep rooted stack e = e :: stack := by
  obtain ⟨h1, h2, h3⟩ := h
  simp [cleanStep, h1, h2, h3]

theorem foldl_cleanStep_plain (rooted : Bool) :
    ∀ (es : List Str) (acc : List Str), (∀ e ∈ es, plain e) →
      es.foldl (cleanStep rooted) acc = es.reverse ++ acc
  | [], acc, _ => rfl
  | e :: es, acc, h => by
    have he : plain e := h e (by simp)
    have hes : ∀ x ∈ es, plain x := fun x hx => h x (by simp [hx])
    simp [List.foldl, cleanStep_plain he, foldl_cleanStep_plain rooted es _ hes]

theorem pathClean_plain {s : Str} (h : ∀ e ∈ splitOn '/' s, plain e) : pathClean s = s := by
  have hne : s ≠ [] := by
    rintro rfl
    exact (h [] (by simp [splitOn])).1 rfl
  have hroot : ¬ s.head? = some '/' := by
    intro hr
    cases s with
    | nil => simp at hr
    | cons x xs =>
      simp at hr
      subst hr
      exact (h [] (by simp [splitOn])).1 rfl
  unfold pathClean
  simp only [hroot, decide_False, foldl_cleanStep_plain _ _ _ h, List.append_nil,
    List.reverse_reverse, joinWith_splitOn, Bool.false_eq_true, if_false, hne]

theorem nameComponentRegexp_plain {e : Str} (h : nameComponentRegexp e = true) : plain e := by
  refine ⟨?_, ?_, ?_⟩ <;> rintro rfl <;> revert h <;> decide

theorem pathJoin_eq {a p : Str} (ha : nameComponentRegexp a = true) (hs : '/' ∉ a)
    (hp : pathRegexp p = true) : pathJoin a p = a ++ '/' :: p := by
  have ha' : a ≠ [] := (nameComponentRegexp_plain ha).1
  have hp' : p ≠ [] := by
    rintro rfl
    revert hp
    decide
  unfold pathJoin
  rw [if_neg ha', if_neg hp']
  apply pathClean_plain
  rw [splitOn_append p hs]
  intro e he
  simp only [List.mem_cons] at he
  rcases he with rfl | he
  · exact nameComponentRegexp_plain ha
  · exact nameComponentRegexp_plain (by
      unfold pathRegexp at hp
      exact List.all_eq_true.1 hp e he)

theorem pathRegexp_anchoredName {s : Str} (h : pathRegexp s = true) :
    (anchoredNameRegexp s).isSome = true := by
  unfold anchoredNameRegexp
  split
  · split
    · rfl
    · simp [h]
  · simp [h]

theorem pathRegexp_append {a p : Str} (ha : nameComponentRegexp a = true) (hs : '/' ∉ a)
    (hp : pathRegexp p = true) : pathRegexp (a ++ '/' :: p) = true := by
  unfold pathRegexp at hp ⊢
  rw [splitOn_append p hs]
  simp [ha, hp]

theorem pathRegexp_of_append {a p : Str} (hs : '/' ∉ a)
    (h : pathRegexp (a ++ '/' :: p) = true) : pathRegexp p = true := by
  unfold pathRegexp at h ⊢
  rw [splitOn_append p hs] at h
  simp at h
  simpa using h.2

theorem anchoredNameRegexp_path {a p : Str} (hs : '/' ∉ a)
    (h : (anchoredNameRegexp (a ++ '/' :: p)).isSome = true) : pathRegexp p = true := by
  unfold anchoredNameRegexp at h
  rw [cut_append p hs] at h
  simp only at h
  split at h
  · rename_i h1
    simp at h1
    exact h1.2
  · split at h
    · rename_i h2
      exact pathRegexp_of_append hs h2
    · simp at h

theorem goLen_append (a b : Str) : goLen (a ++ b) = goLen a + goLen b := by
  simp [goLen]

theorem TrimNamed_Name (name : Str) : (TrimNamed name).Name = name := by
  unfold TrimNamed splitDomain
  cases hA : anchoredNameRegexp name with
  | none => simp [Named.Name, Named.Domain, Named.Path]
  | some dp => exact anchoredNameRegexp_name (d := dp.1) (p := dp.2) hA

theorem TrimNamed_of_wellFormed {r : Named} (h : r.wellFormed = true) :
    TrimNamed r.Name = .repository r.Domain r.Path := by
  simp only [Named.wellFormed, Bool.and_eq_true, decide_eq_true_eq] at h
  simp [TrimNamed, splitDomain, h.1.1.1]

theorem anchoredTagRegexp_nil : anchoredTagRegexp [] = false := by decide

theorem anchoredDigestRegexp_nil : anchoredDigestRegexp [] = false := by decide

theorem getBestReferenceType_eq {d p t g : Str} {r : Named}
    (h : getBestReferenceType d p t g = some r) :
    r = retag d p (if t = [] then none else some t) (if g = [] then none else some g) := by
  unfold getBestReferenceType at h
  split at h
  · simp at h
  · by_cases ht : t = [] <;> by_cases hg : g = [] <;> simp [ht, hg] at h <;> subst h <;>
      simp [retag, ht, hg]

theorem retag_Domain (d p : Str) (t g : Option Str) : (retag d p t g).Domain = d := by
  cases t <;> cases g <;> rfl

theorem retag_Path (d p : Str) (t g : Option Str) : (retag d p t g).Path = p := by
  cases t <;> cases g <;> rfl

theorem retag_Name (d p : Str) (t g : Option Str) :
    (retag d p t g).Name = (Named.repository d p).Name := by
  cases t <;> cases g <;> rfl

theorem retag_wellFormed {c d p : Str} {t g : Option Str}
    (hA : anchoredNameRegexp c = some (d, p)) (hl : goLen c ≤ NameTotalLengthMax)
    (ht : ∀ x, t = some x → anchoredTagRegexp x = true)
    (hg : ∀ x, g = some x → anchoredDigestRegexp x = true) :
    (retag d p t g).wellFormed = true := by
  have hn := anchoredNameRegexp_name hA
  simp only [Named.wellFormed, Bool.and_eq_true, decide_eq_true_eq, retag_Name, retag_Domain,
    retag_Path, hn, hA, hl, retag_asTagged, retag_asDigested, true_and]
  refine ⟨?_, ?_⟩
  · cases t with
    | none => rfl
    | some x => simpa using ht x rfl
  · cases g with
    | none => rfl
    | some x => simpa using hg x rfl

theorem Parse_wellFormed {s : Str} {r : Named} (h : Parse s = .ok r) : r.wellFormed = true := by
  obtain ⟨n, t, g, d, p, hR, hl, hA, hB⟩ := Parse_spec h
  obtain ⟨-, ht, hg, -⟩ := ReferenceRegexp_spec hR
  rw [getBestReferenceType_eq hB]
  refine retag_wellFormed hA hl ?_ ?_
  · intro x hx
    by_cases h0 : t = []
    · simp [h0] at hx
    · simp [h0] at hx; subst hx; exact ht.resolve_left h0
  · intro x hx
    by_cases h0 : g = []
    · simp [h0] at hx
    · simp [h0] at hx; subst hx; exact hg.resolve_left h0

theorem NewName_wellFormed {i : Str} {n : Name} (h : NewName i = .ok n) :
    n.wellFormed = true := by
  unfold NewName at h
  cases hp : ParseNormalizedNamed i with
  | error e => simp [hp] at h
  | ok r =>
    simp [hp] at h
    subst h
    unfold ParseNormalizedNamed at hp
    split at hp
    · simp at hp
    · revert hp
      generalize splitDockerDomain i = DR
      obtain ⟨D, R⟩ := DR
      intro hp
      simp only at hp
      split at hp
      · simp at hp
      · simpa [Name.wellFormed] using Parse_wellFormed hp

theorem synonym_wellFormed {n s : Name} {c : Str} (h : synonym n c = .ok s) :
    s.wellFormed = true := by
  obtain ⟨d, p, hw, ht, hg, rfl⟩ := synonym_iff.1 h
  obtain ⟨hl, d', p', hA, hr⟩ := WithName_eq hw
  simp at hr
  obtain ⟨rfl, rfl⟩ := hr
  simpa [Name.wellFormed] using retag_wellFormed hA hl ht hg

theorem Synonyms_wellFormed {fuel : Nat} {n s : Name} {l : List Name}
    (hn : n.wellFormed = true) (hl : n.Synonyms fuel = .ok l) (hs : s ∈ l) :
    s.wellFormed = true := by
  rcases Synonyms_mem hl hs with rfl | ⟨c, hc⟩
  · exact hn
  · exact synonym_wellFormed hc

theorem WithoutTag_wellFormed {n m : Name} (hn : n.wellFormed = true)
    (h : n.WithoutTag = .ok m) : m.wellFormed = true := by
  unfold Name.WithoutTag Name.Name at h
  cases hr : n.ref with
  | none => simp [hr] at h
  | some r =>
    simp [hr] at h
    subst h
    have hr' : r.wellFormed = true := by simpa [Name.wellFormed, hr] using hn
    rw [TrimNamed_of_wellFormed hr']
    simp only [Named.wellFormed, Bool.and_eq_true, decide_eq_true_eq] at hr'
    simp only [Name.wellFormed, Option.all_some, Named.wellFormed, Bool.and_eq_true, decide_eq_true_eq]
    have : (Named.repository r.Domain r.Path).Name = r.Name := by
      simp [Named.Name, Named.Domain, Named.Path]
    rw [this]
    exact ⟨⟨⟨hr'.1.1.1, hr'.1.1.2⟩, rfl⟩, rfl⟩

theorem addName_mem_iff {m : List Name} {r : Except Err Name} {x : Name} :
    x ∈ addName m r ↔ x ∈ m ∨ r = .ok x := by
  constructor
  · exact addName_mem
  · intro h
    unfold addName
    cases r with
    | error e =>
      rcases h with h | h
      · exact h
      · simp at h
    | ok y =>
      simp only
      split
      · rename_i hy
        rcases h with h | h
        · exact h
        · simp at h; subst h; exact hy
      · rcases h with h | h
        · simp [h]
        · simp at h; subst h; simp

theorem retag_self (r : Named) : retag r.Domain r.Path r.asTagged r.asDigested = r := by
  cases r <;> rfl

theorem retag_String (d p : Str) (t g : Option Str) :
    (retag d p t g).String = (Named.repository d p).Name
      ++ (match t with | some x => ':' :: x | none => [])
      ++ (match g with | some x => '@' :: x | none => []) := by
  cases t <;> cases g <;> simp [retag, Named.String]

theorem wellFormed_tag {r : Named} (h : r.wellFormed = true) :
    ∀ t, r.asTagged = some t → anchoredTagRegexp t = true := by
  simp only [Named.wellFormed, Bool.and_eq_true, decide_eq_true_eq] at h
  intro t ht
  have := h.1.2
  rw [ht] at this
  simpa using this

theorem wellFormed_digest {r : Named} (h : r.wellFormed = true) :
    ∀ g, r.asDigested = some g → anchoredDigestRegexp g = true := by
  simp only [Named.wellFormed, Bool.and_eq_true, decide_eq_true_eq] at h
  intro g hg
  have := h.2
  rw [hg] at this
  simpa using this

theorem suffix_eq {r : Named} (h : r.wellFormed = true) :
    (Name.mk (some r)).suffix = (match r.asTagged with | some x => ':' :: x | none => [])
      ++ (match r.asDigested with | some x => '@' :: x | none => []) := by
  have ht := wellFormed_tag h
  have hg := wellFormed_digest h
  unfold Name.suffix Name.Tag Name.Digest
  simp only [Option.some_bind]
  cases hT : r.asTagged with
  | none =>
    cases hG : r.asDigested with
    | none => simp [EmptyDigest, Digest.String]
    | some g =>
      have h2 : g ≠ [] := by
        rintro rfl
        have := hg [] hG
        simp [anchoredDigestRegexp_nil] at this
      simp [h2, NewDigest, Digest.String]
  | some t =>
    have h1 : t ≠ [] := by
      rintro rfl
      have := ht [] hT
      simp [anchoredTagRegexp_nil] at this
    cases hG : r.asDigested with
    | none => simp [h1, EmptyDigest, Digest.String]
    | some g =>
      have h2 : g ≠ [] := by
        rintro rfl
        have := hg [] hG
        simp [anchoredDigestRegexp_nil] at this
      simp [h1, h2, NewDigest, Digest.String]

/-- With a well-formed original, `synonym` succeeds exactly when `WithName` does. -/
theorem synonym_wf_iff {r : Named} (h : r.wellFormed = true) {c : Str} {s : Name} :
    synonym ⟨some r⟩ c = .ok s ↔
      ∃ d p, WithName c = .ok (.repository d p)
        ∧ s = ⟨some (retag d p r.asTagged r.asDigested)⟩ := by
  rw [synonym_iff]
  simp only [Option.some_bind]
  constructor
  · rintro ⟨d, p, hw, -, -, hs⟩
    exact ⟨d, p, hw, hs⟩
  · rintro ⟨d, p, hw, hs⟩
    exact ⟨d, p, hw, wellFormed_tag h, wellFormed_digest h, hs⟩

theorem synonym_String {r : Named} (h : r.wellFormed = true) {c : Str} {s : Name}
    (hs : synonym ⟨some r⟩ c = .ok s) : s.String = c ++ (Name.mk (some r)).suffix := by
  obtain ⟨d, p, hw, rfl⟩ := (synonym_wf_iff h).1 hs
  obtain ⟨-, d', p', hA, hr⟩ := WithName_eq hw
  simp at hr
  obtain ⟨rfl, rfl⟩ := hr
  rw [suffix_eq h]
  simp only [Name.String, retag_String, anchoredNameRegexp_name hA, List.append_assoc]

theorem synonym_self {r : Named} (h : r.wellFormed = true) :
    synonym ⟨some r⟩ r.Name = .ok ⟨some r⟩ := by
  rw [synonym_wf_iff h]
  have h' := h
  simp only [Named.wellFormed, Bool.and_eq_true, decide_eq_true_eq] at h'
  refine ⟨r.Domain, r.Path, ?_, by rw [retag_self]⟩
  unfold WithName
  rw [if_neg (by omega), h'.1.1.1]

theorem synonym_ok_of_path {r : Named} (h : r.wellFormed = true) {c : Str}
    (hc : pathRegexp c = true) (hl : goLen c ≤ NameTotalLengthMax) :
    ∃ s, synonym ⟨some r⟩ c = .ok s := by
  have hA := pathRegexp_anchoredName hc
  cases hA' : anchoredNameRegexp c with
  | none => simp [hA'] at hA
  | some dp =>
    refine ⟨⟨some (retag dp.1 dp.2 r.asTagged r.asDigested)⟩, ?_⟩
    rw [synonym_wf_iff h]
    refine ⟨dp.1, dp.2, ?_, rfl⟩
    unfold WithName
    rw [if_neg (by omega), hA']

theorem parseHostPath_cut {n : Name} {r : Str} (hn : NewName r = .ok n) :
    ∀ (fuel : Nat) {hp : Str × Str}, n.parseHostPath fuel = .ok hp →
      ∃ r0, n.ref = some r0 ∧ cut '/' r0.Name = some hp
  | 0, hp, h => by simp [Name.parseHostPath] at h
  | fuel + 1, hp, h => by
    obtain ⟨r0, hr⟩ := NewName_ref hn
    refine ⟨r0, hr, ?_⟩
    simp only [Name.parseHostPath, Name.Name, hr] at h
    cases hc : cut '/' r0.Name with
    | some ab =>
      simp only [hc] at h
      simpa using h
    | none =>
      simp only [hc, Normalize_of_NewName hn] at h
      obtain ⟨r1, hr1, hc1⟩ := parseHostPath_cut hn fuel h
      rw [hr] at hr1
      simp at hr1
      subst hr1
      rw [hc] at hc1
      simp at hc1

theorem splitOn_two {p a : Str} :
    ((splitOn '/' p).length = 2 ∧ (splitOn '/' p).head? = some a) ↔
      ∃ q, cut '/' p = some (a, q) ∧ '/' ∉ q := by
  cases hc : cut '/' p with
  | none => simp [splitOn_of_cut_none hc]
  | some ab =>
    obtain ⟨a', b⟩ := ab
    rw [splitOn_of_cut_some hc]
    cases hb : cut '/' b with
    | none =>
      have hb' := cut_eq_none.1 hb
      simp only [splitOn_of_cut_none hb, List.length_cons, List.length_nil, List.head?_cons,
        Option.some.injEq, Prod.mk.injEq, true_and]
      constructor
      · rintro rfl
        exact ⟨b, ⟨rfl, rfl⟩, hb'⟩
      · rintro ⟨q, ⟨rfl, rfl⟩, -⟩
        rfl
    | some ab' =>
      obtain ⟨a'', b''⟩ := ab'
      obtain ⟨hs, -⟩ := cut_eq_some hb
      rw [splitOn_of_cut_some hb]
      constructor
      · rintro ⟨h1, -⟩
        simp at h1
        exact absurd h1 (splitOn_ne_nil '/' b'')
      · rintro ⟨q, h1, h2⟩
        simp at h1
        obtain ⟨-, rfl⟩ := h1
        exact absurd (by rw [hs]; simp) h2

theorem splitOn_two_getD {p a q : Str} (hc : cut '/' p = some (a, q)) (hq : '/' ∉ q) :
    (splitOn '/' p).getD 1 [] = q := by
  rw [splitOn_of_cut_some hc, splitOn_of_cut_none (cut_eq_none.2 hq)]
  rfl

theorem mem_candidates {p c : Str} :
    c ∈ candidates p ↔ c = p ∨ c = "index.docker.io/".toList ++ p
      ∨ c = "docker.io/".toList ++ p
      ∨ ∃ q, cut '/' p = some ("library".toList, q) ∧ '/' ∉ q ∧ c = q := by
  unfold candidates
  cases hc : cut '/' p with
  | none => simp
  | some ab =>
    obtain ⟨a, q⟩ := ab
    by_cases hcond : a = "library".toList ∧ '/' ∉ q
    · obtain ⟨rfl, hq⟩ := hcond
      simp only [List.mem_append, List.mem_cons, List.mem_singleton, List.not_mem_nil, or_false,
        true_and, hq, not_false_eq_true, and_self, if_true, Option.some.injEq, Prod.mk.injEq]
      constructor
      · rintro (h | h)
        · rcases h with h | h | h
          · exact Or.inl h
          · exact Or.inr (Or.inl h)
          · exact Or.inr (Or.inr (Or.inl h))
        · exact Or.inr (Or.inr (Or.inr ⟨q, rfl, hq, h⟩))
      · rintro (h | h | h | ⟨q', rfl, -, h⟩)
        · exact Or.inl (Or.inl h)
        · exact Or.inl (Or.inr (Or.inl h))
        · exact Or.inl (Or.inr (Or.inr h))
        · exact Or.inr h
    · simp only [hcond, if_false, List.append_nil, List.mem_cons, List.mem_singleton,
        List.not_mem_nil, or_false, Option.some.injEq, Prod.mk.injEq]
      constructor
      · rintro (h | h | h)
        · exact Or.inl h
        · exact Or.inr (Or.inl h)
        · exact Or.inr (Or.inr (Or.inl h))
      · rintro (h | h | h | ⟨q', ⟨rfl, rfl⟩, hq, -⟩)
        · exact Or.inl h
        · exact Or.inr (Or.inl h)
        · exact Or.inr (Or.inr h)
        · exact absurd ⟨rfl, hq⟩ hcond

/-- Membership in the result of `Synonyms` for a name on `docker.io`. -/
theorem Synonyms_dockerHub {fuel : Nat} {n : Name} {r0 : Named} {p : Str}
    (hr : n.ref = some r0) (hp : n.parseHostPath fuel = .ok (dockerHubHost, p)) :
    ∃ l, n.Synonyms fuel = .ok l ∧ ∀ x, x ∈ l ↔
      x = n ∨ synonym n p = .ok x
        ∨ (∃ q, cut '/' p = some ("library".toList, q) ∧ '/' ∉ q ∧ synonym n q = .ok x)
        ∨ synonym n (pathJoin fullDockerHubHost p) = .ok x
        ∨ synonym n (pathJoin dockerHubHost p) = .ok x := by
  unfold Name.Synonyms
  simp only [hr, hp, if_true]
  refine ⟨_, rfl, fun x => ?_⟩
  by_cases hcond : (splitOn '/' p).length = 2 ∧ (splitOn '/' p).head? = some "library".toList
  · obtain ⟨q, hc, hq⟩ := splitOn_two.1 hcond
    simp only [hcond, and_self, if_true, addName_mem_iff, List.mem_singleton,
      splitOn_two_getD hc hq, hc, Option.some.injEq, Prod.mk.injEq, true_and]
    constructor
    · rintro ((((h | h) | h) | h) | h)
      · exact Or.inl h
      · exact Or.inr (Or.inl h)
      · exact Or.inr (Or.inr (Or.inl ⟨q, rfl, hq, h⟩))
      · exact Or.inr (Or.inr (Or.inr (Or.inl h)))
      · exact Or.inr (Or.inr (Or.inr (Or.inr h)))
    · rintro (h | h | ⟨q', rfl, -, h⟩ | h | h)
      · exact Or.inl (Or.inl (Or.inl (Or.inl h)))
      · exact Or.inl (Or.inl (Or.inl (Or.inr h)))
      · exact Or.inl (Or.inl (Or.inr h))
      · exact Or.inl (Or.inr h)
      · exact Or.inr h
  · have hno : ¬ ∃ q, cut '/' p = some ("library".toList, q) ∧ '/' ∉ q :=
      fun h => hcond (splitOn_two.2 h)
    simp only [hcond, if_false, addName_mem_iff, List.mem_singleton]
    constructor
    · rintro (((h | h) | h) | h)
      · exact Or.inl h
      · exact Or.inr (Or.inl h)
      · exact Or.inr (Or.inr (Or.inr (Or.inl h)))
      · exact Or.inr (Or.inr (Or.inr (Or.inr h)))
    · rintro (h | h | ⟨q', h1, h2, -⟩ | h | h)
      · exact Or.inl (Or.inl (Or.inl h))
      · exact Or.inl (Or.inl (Or.inr h))
      · exact absurd ⟨q', h1, h2⟩ hno
      · exact Or.inl (Or.inr h)
      · exact Or.inr h

theorem goLen_le_of_append {k m : Nat} (a b : Str) (ha : goLen a = k) (hb : goLen b ≤ m) :
    goLen (a ++ b) ≤ k + m := by
  rw [goLen_append]; omega

/-- The facts on a name of `NewName` whose host and path are `docker.io` and `p`. -/
theorem dockerHub_facts {fuel : Nat} {r p : Str} {n : Name} (h : NewName r = .ok n)
    (hh : n.Host fuel = .ok "docker.io".toList) (hp : n.Path fuel = .ok p) :
    ∃ r0, n = ⟨some r0⟩ ∧ r0.wellFormed = true
      ∧ n.parseHostPath fuel = .ok (dockerHubHost, p)
      ∧ r0.Name = "docker.io/".toList ++ p ∧ pathRegexp p = true := by
  unfold Name.Host at hh
  unfold Name.Path at hp
  cases hpp : n.parseHostPath fuel with
  | error e => simp [hpp, Except.map] at hh
  | ok ab =>
    obtain ⟨a, b⟩ := ab
    simp only [hpp, Except.map, Except.ok.injEq] at hh hp
    subst hp
    have ha : a = dockerHubHost := hh
    subst ha
    obtain ⟨r0, hr, hc⟩ := parseHostPath_cut h fuel hpp
    have hwf : r0.wellFormed = true := by
      simpa [Name.wellFormed, hr] using NewName_wellFormed h
    obtain ⟨hname, -⟩ := cut_eq_some hc
    refine ⟨r0, by cases n; simp_all, hwf, rfl, hname, ?_⟩
    have hwf' := hwf
    simp only [Named.wellFormed, Bool.and_eq_true, decide_eq_true_eq] at hwf'
    have hA := hwf'.1.1.1
    rw [hname] at hA
    exact anchoredNameRegexp_path (a := dockerHubHost) (by decide) (by rw [hA]; rfl)

theorem addName_subset {m : List Name} {r : Except Err Name} {x : Name} (h : x ∈ m) :
    x ∈ addName m r := addName_mem_iff.2 (Or.inl h)

theorem addName_nodup {m : List Name} (r : Except Err Name) (h : m.Nodup) :
    (addName m r).Nodup := by
  unfold addName
  cases r with
  | error e => exact h
  | ok y =>
    simp only
    split
    · exact h
    · rename_i hy
      rw [List.nodup_append]
      refine ⟨h, List.nodup_singleton y, ?_⟩
      intro a ha hb
      simp at hb
      subst hb
      exact hy ha

/-- The result of `Synonyms`, when there is one, holds the receiver and no name twice. -/
theorem Synonyms_invariant {fuel : Nat} {n : Name} {l : List Name}
    (hl : n.Synonyms fuel = .ok l) : l ≠ [] ∧ n ∈ l ∧ l.Nodup := by
  have key : n ∈ l ∧ l.Nodup := by
    unfold Name.Synonyms at hl
    cases hr : n.ref with
    | none =>
      simp only [hr, Except.ok.injEq] at hl
      subst hl
      have : n = EmptyName := by cases n; simp_all [EmptyName]
      simp [this]
    | some r =>
      simp only [hr] at hl
      cases hp : n.parseHostPath fuel with
      | error e => simp [hp] at hl
      | ok hp' =>
        obtain ⟨a, b⟩ := hp'
        simp only [hp] at hl
        have h0 : n ∈ [n] ∧ [n].Nodup := ⟨by simp, List.nodup_singleton n⟩
        split at hl
        · simp only [Except.ok.injEq] at hl
          subst hl
          refine ⟨addName_subset (addName_subset ?_), addName_nodup _ (addName_nodup _ ?_)⟩
          · split
            · exact addName_subset (addName_subset h0.1)
            · exact addName_subset h0.1
          · split
            · exact addName_nodup _ (addName_nodup _ h0.2)
            · exact addName_nodup _ h0.2
        · simp only [Except.ok.injEq] at hl
          subst hl
          exact h0
  exact ⟨List.ne_nil_of_mem key.1, key.1, key.2⟩

/-- `Synonyms` returns whenever the split into host and path does. -/
theorem Synonyms_returns {fuel : Nat} {n : Name} {hp : Str × Str}
    (h : n.parseHostPath fuel = .ok hp) : ∃ l, n.Synonyms fuel = .ok l := by
  unfold Name.Synonyms
  cases hr : n.ref with
  | none => exact ⟨_, rfl⟩
  | some r =>
    simp only [h]
    split
    · exact ⟨_, rfl⟩
    · exact ⟨_, rfl⟩

theorem WithTag_eq {r : Named} {t : Str} (h : anchoredTagRegexp t = true) :
    WithTag r t = .ok (retag r.Domain r.Path (some t) r.asDigested) := by
  unfold WithTag
  simp only [h, Bool.not_true, Bool.false_eq_true, if_false]
  cases r <;> rfl

theorem WithTag_error {r : Named} {t : Str} (h : anchoredTagRegexp t = false) :
    WithTag r t = .error .tagInvalidFormat := by
  unfold WithTag
  simp [h]

theorem WithDigest_eq {r : Named} {g : Str} (h : anchoredDigestRegexp g = true) :
    WithDigest r g = .ok (retag r.Domain r.Path r.asTagged (some g)) := by
  unfold WithDigest
  simp only [h, Bool.not_true, Bool.false_eq_true, if_false]
  cases r <;> rfl

theorem WithDigest_error {r : Named} {g : Str} (h : anchoredDigestRegexp g = false) :
    WithDigest r g = .error .digestInvalidFormat := by
  unfold WithDigest
  simp [h]

theorem Name_WithTag_ok {n : Name} {r : Named} {t : Str} (hr : n.ref = some r)
    (h : anchoredTagRegexp t = true) :
    n.WithTag t = .ok (⟨some (retag r.Domain r.Path (some t) r.asDigested)⟩, none) := by
  simp only [Name.WithTag, hr, WithTag_eq h]

theorem Name_WithTag_error (n : Name) {t : Str} (h : anchoredTagRegexp t = false) :
    n.WithTag t = .ok (EmptyName, some (.applyTag t n.String .tagInvalidFormat)) := by
  unfold Name.WithTag
  cases hr : n.ref with
  | none => simp [h]
  | some r => simp only [WithTag_error h]

theorem Name_WithDigest_ok {n : Name} {r : Named} {g : Digest} (hr : n.ref = some r)
    (h : anchoredDigestRegexp g.dig = true) :
    n.WithDigest g = .ok (⟨some (retag r.Domain r.Path r.asTagged (some g.dig))⟩, none) := by
  simp only [Name.WithDigest, hr, WithDigest_eq h]

theorem Name_WithDigest_error (n : Name) {g : Digest} (h : anchoredDigestRegexp g.dig = false) :
    n.WithDigest g
      = .ok (EmptyName, some (.applyDigest g.String n.String .digestInvalidFormat)) := by
  unfold Name.WithDigest
  cases hr : n.ref with
  | none => simp [h]
  | some r => simp only [WithDigest_error h]

theorem ref_of_ne_empty {n : Name} (h : n ≠ EmptyName) : ∃ r, n.ref = some r := by
  obtain ⟨r⟩ := n
  cases r with
  | none => exact absurd rfl h
  | some r => exact ⟨r, rfl⟩

theorem parseHostPath_congr {n m : Name} {r r' : Named} (hn : n.ref = some r)
    (hm : m.ref = some r') (hname : r'.Name = r.Name) (hs : '/' ∈ r.Name) (fuel : Nat) :
    m.parseHostPath fuel = n.parseHostPath fuel := by
  cases fuel with
  | zero => rfl
  | succ k =>
    cases hc : cut '/' r.Name with
    | none => exact absurd hs (cut_eq_none.1 hc)
    | some hp =>
      simp only [Name.parseHostPath, Name.Name, hn, hm, hname, hc]

theorem runDFA_not_mem {σ : Type} {step : σ → Char → Option σ} {accept : σ → Bool} {x : Char}
    (hx : ∀ q, step q x = none) :
    ∀ (s : Str) (q : σ), runDFA step accept q s = true → x ∉ s
  | [], _, _ => by simp
  | c :: cs, q, h => by
    unfold runDFA at h
    cases hs : step q c with
    | none => simp [hs] at h
    | some q' =>
      simp only [hs] at h
      have ih := runDFA_not_mem hx cs q' h
      simp only [List.mem_cons, not_or]
      refine ⟨?_, ih⟩
      rintro rfl
      rw [hx q] at hs
      simp at hs

theorem all_not_mem {p : Char → Bool} {x : Char} (hx : p x = false) {s : Str}
    (h : s.all p = true) : x ∉ s := by
  intro hm
  have := List.all_eq_true.1 h x hm
  rw [hx] at this
  simp at this

theorem mem_joinWith {c x : Char} : ∀ {l : List Str}, x ∈ joinWith c l → x = c ∨ ∃ e ∈ l, x ∈ e
  | [], h => by simp [joinWith] at h
  | [a], h => Or.inr ⟨a, by simp, by simpa [joinWith] using h⟩
  | a :: b :: rest, h => by
    simp only [joinWith, List.mem_append, List.mem_cons] at h
    rcases h with h | h | h
    · exact Or.inr ⟨a, by simp, h⟩
    · exact Or.inl h
    · rcases mem_joinWith h with h | ⟨e, he, hx⟩
      · exact Or.inl h
      · exact Or.inr ⟨e, by simp only [List.mem_cons] at he ⊢; exact Or.inr he, hx⟩

theorem mem_splitOn {c x : Char} {s : Str} (hx : x ∈ s) (hc : x ≠ c) :
    ∃ e ∈ splitOn c s, x ∈ e := by
  rw [← joinWith_splitOn c s] at hx
  rcases mem_joinWith hx with h | h
  · exact absurd h hc
  · exact h

theorem anchoredTagRegexp_not_mem {x : Char} (hx : (wordChar x || x = '.' || x = '-') = false)
    {t : Str} (h : anchoredTagRegexp t = true) : x ∉ t := by
  cases t with
  | nil => simp
  | cons c cs =>
    simp only [anchoredTagRegexp, Bool.and_eq_true, decide_eq_true_eq] at h
    have h1 : wordChar x = false := by
      cases hw : wordChar x
      · rfl
      · simp [hw] at hx
    simp only [List.mem_cons, not_or]
    refine ⟨?_, all_not_mem hx h.1.2⟩
    rintro rfl
    rw [h.1.1] at h1
    simp at h1

theorem anchoredDigestRegexp_not_mem {x : Char} (h1 : ∀ q, algStep q x = none)
    (h2 : xdigit x = false) (h3 : x ≠ ':') {g : Str} (h : anchoredDigestRegexp g = true) :
    x ∉ g := by
  unfold anchoredDigestRegexp at h
  cases hc : cut ':' g with
  | none => simp [hc] at h
  | some ab =>
    obtain ⟨a, b⟩ := ab
    simp only [hc, Bool.and_eq_true, decide_eq_true_eq] at h
    obtain ⟨hg, -⟩ := cut_eq_some hc
    rw [hg]
    simp only [List.mem_append, List.mem_cons, not_or]
    exact ⟨runDFA_not_mem h1 a _ h.1.1, h3, all_not_mem h2 h.1.2⟩

theorem algStep_slash (q : AlgState) : algStep q '/' = none := by cases q <;> decide

theorem compStep_at (q : CompState) : compStep q '@' = none := by cases q <;> decide

theorem pathRegexp_at {p : Str} (h : pathRegexp p = true) : '@' ∉ p := by
  intro hm
  obtain ⟨e, he, hx⟩ := mem_splitOn (c := '/') hm (by decide)
  have := List.all_eq_true.1 h e he
  exact runDFA_not_mem compStep_at e _ this hx

theorem domainComponentRegexp_at {e : Str} (h : domainComponentRegexp e = true) : '@' ∉ e := by
  cases e with
  | nil => simp
  | cons c cs =>
    simp only [domainComponentRegexp, Bool.and_eq_true] at h
    exact all_not_mem (p := fun x => x.isAlphanum || decide (x = '-')) (by decide) h.1.2

theorem domainHost_at {d : Str} (h : (splitOn '.' d).all domainComponentRegexp = true) :
    '@' ∉ d := by
  intro hm
  obtain ⟨e, he, hx⟩ := mem_splitOn (c := '.') hm (by decide)
  exact domainComponentRegexp_at (List.all_eq_true.1 h e he) hx

theorem DomainRegexp_at {d : Str} (h : DomainRegexp d = true) : '@' ∉ d := by
  unfold DomainRegexp at h
  cases hc : cut ':' d with
  | none =>
    simp only [hc] at h
    exact domainHost_at h
  | some ab =>
    obtain ⟨a, b⟩ := ab
    simp only [hc, Bool.and_eq_true] at h
    obtain ⟨hd, -⟩ := cut_eq_some hc
    rw [hd]
    simp only [List.mem_append, List.mem_cons, not_or]
    exact ⟨domainHost_at h.1.1, by decide, all_not_mem (by decide) h.2⟩

theorem anchoredNameRegexp_at {s d p : Str} (h : anchoredNameRegexp s = some (d, p)) :
    '@' ∉ s := by
  unfold anchoredNameRegexp at h
  cases hc : cut '/' s with
  | none =>
    simp only [hc] at h
    split at h
    · rename_i hp; exact pathRegexp_at hp
    · simp at h
  | some ab =>
    obtain ⟨a, b⟩ := ab
    simp only [hc] at h
    obtain ⟨hs, -⟩ := cut_eq_some hc
    split at h
    · rename_i hd
      simp only [Bool.and_eq_true] at hd
      rw [hs]
      simp only [List.mem_append, List.mem_cons, not_or]
      exact ⟨DomainRegexp_at hd.1, by decide, pathRegexp_at hd.2⟩
    · split at h
      · rename_i hp; exact pathRegexp_at hp
      · simp at h

theorem wellFormed_Name_at {r : Named} (h : r.wellFormed = true) : '@' ∉ r.Name := by
  simp only [Named.wellFormed, Bool.and_eq_true, decide_eq_true_eq] at h
  exact anchoredNameRegexp_at h.1.1.1

/-- The name of a reference that `NewName` returns contains a slash. -/
theorem NewName_slash {i : Str} {n : Name} (h : NewName i = .ok n) :
    ∃ r, n.ref = some r ∧ '/' ∈ r.Name := by
  unfold NewName at h
  cases hp : ParseNormalizedNamed i with
  | error e => simp [hp] at h
  | ok r =>
    simp [hp] at h
    subst h
    refine ⟨r, rfl, ?_⟩
    unfold ParseNormalizedNamed at hp
    split at hp
    · simp at hp
    · revert hp
      generalize splitDockerDomain i = DR
      obtain ⟨D, R⟩ := DR
      intro hp
      simp only at hp
      split at hp
      · simp at hp
      · obtain ⟨nm, t, g, d, p, hR, -, hA, hB⟩ := Parse_spec hp
        obtain ⟨-, ht, hg, hs⟩ := ReferenceRegexp_spec hR
        have hname : r.Name = nm := by
          rw [getBestReferenceType_eq hB, retag_Name, anchoredNameRegexp_name hA]
        rw [hname]
        have hmem : '/' ∈ assemble nm t g := by rw [← hs]; simp
        have ht' : '/' ∉ (if t = [] then [] else ':' :: t) := by
          rcases ht with rfl | ht
          · simp
          · have := anchoredTagRegexp_not_mem (x := '/') (by decide) ht
            split
            · simp
            · simp only [List.mem_cons, not_or]; exact ⟨by decide, this⟩
        have hg' : '/' ∉ (if g = [] then [] else '@' :: g) := by
          rcases hg with rfl | hg
          · simp
          · have := anchoredDigestRegexp_not_mem (x := '/') algStep_slash (by decide)
              (by decide) hg
            split
            · simp
            · simp only [List.mem_cons, not_or]; exact ⟨by decide, this⟩
        simp only [assemble, List.mem_append] at hmem
        rcases hmem with (h1 | h1) | h1
        · exact h1
        · exact absurd h1 ht'
        · exact absurd h1 hg'

theorem NewName_of_Normalize {n m : Name} (hne : n ≠ EmptyName) (h : n.Normalize = .ok m) :
    NewName n.String = .ok m := by
  obtain ⟨r, hr⟩ := ref_of_ne_empty hne
  unfold Name.Normalize at h
  simp only [hr] at h
  cases hN : NewName n.String with
  | error e => simp [hN] at h
  | ok m' => simp only [hN, Except.ok.injEq] at h; rw [h]

theorem parseHostPath_slash {n : Name} {r : Named} (hr : n.ref = some r) (hs : '/' ∈ r.Name)
    (fuel : Nat) : ∃ h p, n.parseHostPath (fuel + 1) = .ok (h, p) ∧ h ++ '/' :: p = r.Name := by
  cases hc : cut '/' r.Name with
  | none => exact absurd hs (cut_eq_none.1 hc)
  | some hp =>
    obtain ⟨h, p⟩ := hp
    exact ⟨h, p, parseHostPath_of_cut fuel hr hc, (cut_eq_some hc).1.symm⟩

/-- What `WithTag` keeps of a non-empty name. -/
theorem withTag_ok (n : Name) (r : Named) (t : Str) (hr : n.ref = some r)
    (ht : anchoredTagRegexp t = true) :
    ∃ m, n.WithTag t = .ok (m, none) ∧ m.Tag = t ∧ m.Name = n.Name ∧ m.Digest = n.Digest
      ∧ ('/' ∈ r.Name → ∀ fuel, m.Path fuel = n.Path fuel) := by
  have hname : (retag r.Domain r.Path (some t) r.asDigested).Name = r.Name := by
    rw [retag_Name]; simp [Named.Name, Named.Domain, Named.Path]
  refine ⟨_, Name_WithTag_ok hr ht, ?_, ?_, ?_, ?_⟩
  · simp [Name.Tag, retag_asTagged]
  · simp [Name.Name, hr, hname]
  · simp [Name.Digest, retag_asDigested, hr]
  · intro hs fuel
    simp only [Name.Path]
    rw [parseHostPath_congr hr rfl hname hs fuel]

/-! ## The claims -/

/-- C1, evaluated at `docker.io/example.com/app`: the name is on `docker.io`, its synonym
with the host left out is `example.com/app`, which normalizes to a name on the registry
`example.com` with a single synonym, while the name itself has three. -/
theorem synonyms_not_closed :
    NewName "docker.io/example.com/app".toList
        = .ok ⟨some (.repository "docker.io".toList "example.com/app".toList)⟩
      ∧ (Name.mk (some (.repository "docker.io".toList "example.com/app".toList))).Host 2
        = .ok "docker.io".toList
      ∧ (Name.mk (some (.repository "docker.io".toList "example.com/app".toList))).Synonyms 2
        = .ok [⟨some (.repository "docker.io".toList "example.com/app".toList)⟩,
            ⟨some (.repository "example.com".toList "app".toList)⟩,
            ⟨some (.repository "index.docker.io".toList "example.com/app".toList)⟩]
      ∧ ((Name.mk (some (.repository "example.com".toList "app".toList))).Normalize
          >>= Name.Synonyms 2)
        = .ok [⟨some (.repository "example.com".toList "app".toList)⟩]
      ∧ ((Name.mk (some (.repository "docker.io".toList "example.com/app".toList))).Normalize
          >>= Name.Synonyms 2)
        = .ok [⟨some (.repository "docker.io".toList "example.com/app".toList)⟩,
            ⟨some (.repository "example.com".toList "app".toList)⟩,
            ⟨some (.repository "index.docker.io".toList "example.com/app".toList)⟩] := by
  decide

set_option maxRecDepth 1000000 in
/-- C2 fails for a bare name of 232 characters: `NewName` accepts it and its synonyms have
three string forms, the `index.docker.io` spelling being longer than 255 bytes. -/
theorem long_name_three_synonyms :
    NewName (List.replicate 232 'a')
        = .ok ⟨some (.repository "docker.io".toList ("library/".toList ++ List.replicate 232 'a'))⟩
      ∧ WithName ("index.docker.io/library/".toList ++ List.replicate 232 'a')
        = .error .nameTooLong
      ∧ (Name.mk (some (.repository "docker.io".toList
          ("library/".toList ++ List.replicate 232 'a')))).Synonyms 2
        = .ok [⟨some (.repository "docker.io".toList
              ("library/".toList ++ List.replicate 232 'a'))⟩,
            ⟨some (.repository "library".toList (List.replicate 232 'a'))⟩,
            ⟨some (.repository [] (List.replicate 232 'a'))⟩]
      ∧ [Name.mk (some (.repository "docker.io".toList
              ("library/".toList ++ List.replicate 232 'a'))),
            ⟨some (.repository "library".toList (List.replicate 232 'a'))⟩,
            ⟨some (.repository [] (List.replicate 232 'a'))⟩].map Name.String
        = ["docker.io/library/".toList ++ List.replicate 232 'a',
            "library/".toList ++ List.replicate 232 'a', List.replicate 232 'a'] := by
  decide

/-- C2, amended: for a string that `NewName` accepts, with host `docker.io`, path `p` and
suffix `x`, the string forms of the synonyms are exactly the `c ++ x` for the candidates
`c` whose construction succeeds; when `p` is `library/q` with `q` one segment of at most
231 bytes, they are the four forms `q`, `library/q`, `docker.io/library/q` and
`index.docker.io/library/q`, each followed by `x`. -/
theorem synonyms_strings (fuel : Nat) (r p : Str) (n : Name) (h : NewName r = .ok n)
    (hh : n.Host fuel = .ok "docker.io".toList) (hp : n.Path fuel = .ok p) :
    ∃ l, n.Synonyms fuel = .ok l
      ∧ (∀ str, str ∈ l.map Name.String ↔
          ∃ c ∈ candidates p, (∃ s, synonym n c = .ok s) ∧ str = c ++ n.suffix)
      ∧ (∀ q, p = "library/".toList ++ q → '/' ∉ q → goLen q ≤ 231 →
          ∀ str, str ∈ l.map Name.String ↔
            str ∈ [q ++ n.suffix, "library/".toList ++ q ++ n.suffix,
              "docker.io/library/".toList ++ q ++ n.suffix,
              "index.docker.io/library/".toList ++ q ++ n.suffix]) := by
  obtain ⟨r0, rfl, hwf, hpp, hname, hpath⟩ := dockerHub_facts h hh hp
  have hfull : pathJoin fullDockerHubHost p = "index.docker.io/".toList ++ p :=
    pathJoin_eq (a := fullDockerHubHost) (by decide) (by decide) hpath
  have hhub : pathJoin dockerHubHost p = "docker.io/".toList ++ p :=
    pathJoin_eq (a := dockerHubHost) (by decide) (by decide) hpath
  have hseed : synonym ⟨some r0⟩ ("docker.io/".toList ++ p) = .ok ⟨some r0⟩ := by
    rw [← hname]; exact synonym_self hwf
  obtain ⟨l, hl, hmem⟩ := @Synonyms_dockerHub _ _ r0 _ rfl hpp
  rw [hfull, hhub] at hmem
  have part1 : ∀ str, str ∈ l.map Name.String ↔
      ∃ c ∈ candidates p, (∃ s, synonym ⟨some r0⟩ c = .ok s)
        ∧ str = c ++ (Name.mk (some r0)).suffix := by
    intro str
    simp only [List.mem_map, hmem]
    constructor
    · rintro ⟨x, hx, rfl⟩
      rcases hx with rfl | hx | ⟨q, hc, hq, hx⟩ | hx | hx
      · exact ⟨_, mem_candidates.2 (Or.inr (Or.inr (Or.inl rfl))), ⟨_, hseed⟩,
          synonym_String hwf hseed⟩
      · exact ⟨_, mem_candidates.2 (Or.inl rfl), ⟨_, hx⟩, synonym_String hwf hx⟩
      · exact ⟨_, mem_candidates.2 (Or.inr (Or.inr (Or.inr ⟨q, hc, hq, rfl⟩))), ⟨_, hx⟩,
          synonym_String hwf hx⟩
      · exact ⟨_, mem_candidates.2 (Or.inr (Or.inl rfl)), ⟨_, hx⟩, synonym_String hwf hx⟩
      · exact ⟨_, mem_candidates.2 (Or.inr (Or.inr (Or.inl rfl))), ⟨_, hx⟩,
          synonym_String hwf hx⟩
    · rintro ⟨c, hc, ⟨s, hs⟩, rfl⟩
      refine ⟨s, ?_, synonym_String hwf hs⟩
      rcases mem_candidates.1 hc with rfl | rfl | rfl | ⟨q, hcut, hq, rfl⟩
      · exact Or.inr (Or.inl hs)
      · exact Or.inr (Or.inr (Or.inr (Or.inl hs)))
      · exact Or.inr (Or.inr (Or.inr (Or.inr hs)))
      · exact Or.inr (Or.inr (Or.inl ⟨_, hcut, hq, hs⟩))
  refine ⟨l, hl, part1, ?_⟩
  intro q hq hslash hlen str
  subst hq
  have hcut : cut '/' ("library/".toList ++ q) = some ("library".toList, q) :=
    cut_append (a := "library".toList) q (by decide)
  have hq' : pathRegexp q = true :=
    pathRegexp_of_append (a := "library".toList) (by decide) hpath
  have hfullp : pathRegexp ("index.docker.io/".toList ++ ("library/".toList ++ q)) = true :=
    pathRegexp_append (a := "index.docker.io".toList) (by decide) (by decide) hpath
  have ok1 := synonym_ok_of_path hwf hq' (by unfold NameTotalLengthMax; omega)
  have len2 : goLen ("library/".toList ++ q) ≤ 239 :=
    goLen_le_of_append (k := 8) (m := 231) "library/".toList q (by decide) hlen
  have len4 : goLen ("index.docker.io/".toList ++ ("library/".toList ++ q)) ≤ 255 :=
    goLen_le_of_append (k := 16) (m := 239) "index.docker.io/".toList _ (by decide) len2
  have ok2 := synonym_ok_of_path hwf hpath (by unfold NameTotalLengthMax; omega)
  have ok4 := synonym_ok_of_path hwf hfullp len4
  rw [part1]
  simp only [List.mem_cons, List.mem_singleton, List.not_mem_nil, or_false]
  constructor
  · rintro ⟨c, hc, -, rfl⟩
    rcases mem_candidates.1 hc with rfl | rfl | rfl | ⟨q', hcut', -, rfl⟩
    · exact Or.inr (Or.inl rfl)
    · exact Or.inr (Or.inr (Or.inr rfl))
    · exact Or.inr (Or.inr (Or.inl rfl))
    · rw [hcut] at hcut'
      simp at hcut'
      subst hcut'
      exact Or.inl rfl
  · rintro (rfl | rfl | rfl | rfl)
    · exact ⟨_, mem_candidates.2 (Or.inr (Or.inr (Or.inr ⟨q, hcut, hslash, rfl⟩))), ok1, rfl⟩
    · exact ⟨_, mem_candidates.2 (Or.inl rfl), ok2, rfl⟩
    · exact ⟨_, mem_candidates.2 (Or.inr (Or.inr (Or.inl rfl))), ⟨_, hseed⟩, rfl⟩
    · exact ⟨_, mem_candidates.2 (Or.inr (Or.inl rfl)), ok4, rfl⟩

/-- C2, amended, at `ubuntu:18.10`. -/
theorem synonyms_strings_witness :
    ∃ l, (Name.mk (some (.taggedReference "docker.io".toList "library/ubuntu".toList
        "18.10".toList))).Synonyms 1 = .ok l
      ∧ ∀ str, str ∈ l.map Name.String ↔
          str ∈ ["ubuntu:18.10".toList, "library/ubuntu:18.10".toList,
            "docker.io/library/ubuntu:18.10".toList,
            "index.docker.io/library/ubuntu:18.10".toList] :=
  (synonyms_strings 1 "ubuntu:18.10".toList "library/ubuntu".toList
    ⟨some (.taggedReference "docker.io".toList "library/ubuntu".toList "18.10".toList)⟩
    (by decide) (by decide) (by decide)).elim
    (fun l hl => ⟨l, hl.1, hl.2.2 "ubuntu".toList (by decide) (by decide) (by decide)⟩)

/-- C3: a non-empty name whose host is not `docker.io` has exactly one synonym, the name
itself. -/
theorem synonyms_other_host (fuel : Nat) (n : Name) (h : Str) (hne : n ≠ EmptyName)
    (hh : n.Host fuel = .ok h) (hd : h ≠ dockerHubHost) : n.Synonyms fuel = .ok [n] := by
  unfold Name.Host at hh
  unfold Name.Synonyms
  cases hr : n.ref with
  | none => exact absurd (by cases n; simp_all [EmptyName]) hne
  | some r =>
    cases hp : n.parseHostPath fuel with
    | error e => simp [hp, Except.map] at hh
    | ok hp' =>
      obtain ⟨a, b⟩ := hp'
      simp [hp, Except.map] at hh
      subst hh
      simp [hd]

/-- C3 at `myregistry.example.com/foo`. -/
theorem synonyms_other_host_witness :
    NewName "myregistry.example.com/foo".toList
        = .ok ⟨some (.repository "myregistry.example.com".toList "foo".toList)⟩
      ∧ (Name.mk (some (.repository "myregistry.example.com".toList "foo".toList))).Synonyms 1
        = .ok [⟨some (.repository "myregistry.example.com".toList "foo".toList)⟩] :=
  ⟨by decide, synonyms_other_host 1 _ "myregistry.example.com".toList (by decide) (by decide)
    (by decide)⟩

/-- C4, evaluated at `ubuntu@sha256:dead...beef`: the name has no tag, and `WithoutTag`
returns `docker.io/library/ubuntu` without the digest, a name different from the
original, where the claim has the original returned. -/
theorem withoutTag_drops_digest :
    NewName "ubuntu@sha256:deadbeefdeadbeefdeadbeefdeadbeefdeadbeefdeadbeefdeadbeefdeadbeef".toList
        = .ok ⟨some (.canonicalReference "docker.io".toList "library/ubuntu".toList
          "sha256:deadbeefdeadbeefdeadbeefdeadbeefdeadbeefdeadbeefdeadbeefdeadbeef".toList)⟩
      ∧ (Name.mk (some (.canonicalReference "docker.io".toList "library/ubuntu".toList
          "sha256:deadbeefdeadbeefdeadbeefdeadbeefdeadbeefdeadbeefdeadbeefdeadbeef".toList))).Tag = []
      ∧ (Name.mk (some (.canonicalReference "docker.io".toList "library/ubuntu".toList
          "sha256:deadbeefdeadbeefdeadbeefdeadbeefdeadbeefdeadbeefdeadbeefdeadbeef".toList))).WithoutTag
        = .ok ⟨some (.repository "docker.io".toList "library/ubuntu".toList)⟩
      ∧ (Name.mk (some (.repository "docker.io".toList "library/ubuntu".toList)))
        ≠ ⟨some (.canonicalReference "docker.io".toList "library/ubuntu".toList
          "sha256:deadbeefdeadbeefdeadbeefdeadbeefdeadbeefdeadbeefdeadbeefdeadbeef".toList)⟩ := by
  decide

/-- `WithoutTag` returns the name itself for a name that has neither tag nor digest (and
is well formed, as every name built by the package is). -/
theorem withoutTag_bare (n : Name) (d p : Str) (hwf : n.wellFormed = true)
    (hr : n.ref = some (.repository d p)) : n.WithoutTag = .ok n := by
  have hr' : (Named.repository d p).wellFormed = true := by
    simpa [Name.wellFormed, hr] using hwf
  have := TrimNamed_of_wellFormed hr'
  obtain ⟨r⟩ := n
  simp only at hr
  subst hr
  simp only [Name.WithoutTag, Name.Name, this]
  rfl

/-- C5 fails at the empty name: `WithoutTag` panics on the nil reference. -/
theorem withoutTag_empty_panics : EmptyName.WithoutTag = .error .nilDereference := by
  decide

/-- C5, amended: for every non-empty name `WithoutTag` returns a name without tag, and
for a tagged name without digest the string form of the original is that of the result
followed by `:tag`. -/
theorem withoutTag_tag (n : Name) (hne : n ≠ EmptyName) :
    ∃ m, n.WithoutTag = .ok m ∧ m.Tag = []
      ∧ ∀ d p t, n.ref = some (.taggedReference d p t) → n.String = m.String ++ ':' :: t := by
  obtain ⟨r⟩ := n
  cases r with
  | none => exact absurd rfl hne
  | some r =>
    refine ⟨⟨some (TrimNamed r.Name)⟩, rfl, rfl, ?_⟩
    intro d p t hr
    simp only [Option.some.injEq] at hr
    subst hr
    have h1 : (Name.mk (some (TrimNamed (Named.taggedReference d p t).Name))).String
        = (Named.taggedReference d p t).Name := by
      have := TrimNamed_Name (Named.taggedReference d p t).Name
      simpa [Name.String, TrimNamed, Named.String] using this
    rw [h1]
    simp [Name.String, Named.String, Named.Name, Named.Domain, Named.Path]

/-- C5, amended, at `ubuntu:some-tag`. -/
theorem withoutTag_tag_witness :
    ∃ m, (Name.mk (some (.taggedReference "docker.io".toList "library/ubuntu".toList
        "some-tag".toList))).WithoutTag = .ok m ∧ m.Tag = []
      ∧ ∀ d p t, (Name.mk (some (.taggedReference "docker.io".toList "library/ubuntu".toList
          "some-tag".toList))).ref = some (.taggedReference d p t) →
        (Name.mk (some (.taggedReference "docker.io".toList "library/ubuntu".toList
          "some-tag".toList))).String = m.String ++ ':' :: t :=
  withoutTag_tag _ (by decide)

/-- C6: every synonym of a name has the tag and the digest of that name. -/
theorem synonyms_keep_tag_digest (fuel : Nat) (n s : Name) (l : List Name)
    (hl : n.Synonyms fuel = .ok l) (hs : s ∈ l) : s.Tag = n.Tag ∧ s.Digest = n.Digest := by
  rcases Synonyms_mem hl hs with rfl | ⟨c, hc⟩
  · exact ⟨rfl, rfl⟩
  · exact synonym_tag_digest hc

/-- C6 at `ubuntu:18.10@sha256:dead...beef` and its synonym without host and namespace. -/
theorem synonyms_keep_tag_digest_witness :
    (Name.mk (some (.reference [] "ubuntu".toList "18.10".toList
        "sha256:deadbeefdeadbeefdeadbeefdeadbeefdeadbeefdeadbeefdeadbeefdeadbeef".toList))).Tag
        = "18.10".toList
      ∧ (Name.mk (some (.reference [] "ubuntu".toList "18.10".toList
        "sha256:deadbeefdeadbeefdeadbeefdeadbeefdeadbeefdeadbeefdeadbeefdeadbeef".toList))).Digest
        = NewDigest
          "sha256:deadbeefdeadbeefdeadbeefdeadbeefdeadbeefdeadbeefdeadbeefdeadbeef".toList :=
  synonyms_keep_tag_digest 1
    ⟨some (.reference "docker.io".toList "library/ubuntu".toList "18.10".toList
      "sha256:deadbeefdeadbeefdeadbeefdeadbeefdeadbeefdeadbeefdeadbeefdeadbeef".toList)⟩
    ⟨some (.reference [] "ubuntu".toList "18.10".toList
      "sha256:deadbeefdeadbeefdeadbeefdeadbeefdeadbeefdeadbeefdeadbeefdeadbeef".toList)⟩
    [⟨some (.reference "docker.io".toList "library/ubuntu".toList "18.10".toList
        "sha256:deadbeefdeadbeefdeadbeefdeadbeefdeadbeefdeadbeefdeadbeefdeadbeef".toList)⟩,
      ⟨some (.reference "library".toList "ubuntu".toList "18.10".toList
        "sha256:deadbeefdeadbeefdeadbeefdeadbeefdeadbeefdeadbeefdeadbeefdeadbeef".toList)⟩,
      ⟨some (.reference [] "ubuntu".toList "18.10".toList
        "sha256:deadbeefdeadbeefdeadbeefdeadbeefdeadbeefdeadbeefdeadbeefdeadbeef".toList)⟩,
      ⟨some (.reference "index.docker.io".toList "library/ubuntu".toList "18.10".toList
        "sha256:deadbeefdeadbeefdeadbeefdeadbeefdeadbeefdeadbeefdeadbeefdeadbeef".toList)⟩]
    (by decide) (by decide)

/-- C7, evaluated at `ubuntu`: its synonym with the host left out, `library/ubuntu`, has
host `library` and path `ubuntu`. -/
theorem path_only_synonym_host :
    NewName "ubuntu".toList = .ok ⟨some (.repository "docker.io".toList "library/ubuntu".toList)⟩
      ∧ (Name.mk (some (.repository "docker.io".toList "library/ubuntu".toList))).Synonyms 2
        = .ok [⟨some (.repository "docker.io".toList "library/ubuntu".toList)⟩,
            ⟨some (.repository "library".toList "ubuntu".toList)⟩,
            ⟨some (.repository [] "ubuntu".toList)⟩,
            ⟨some (.repository "index.docker.io".toList "library/ubuntu".toList)⟩]
      ∧ synonym ⟨some (.repository "docker.io".toList "library/ubuntu".toList)⟩
          "library/ubuntu".toList = .ok ⟨some (.repository "library".toList "ubuntu".toList)⟩
      ∧ (Name.mk (some (.repository "library".toList "ubuntu".toList))).Host 2
          = .ok "library".toList
      ∧ (Name.mk (some (.repository "library".toList "ubuntu".toList))).Path 2
          = .ok "ubuntu".toList
      ∧ (Name.mk (some (.repository "docker.io".toList "library/ubuntu".toList))).Path 2
          = .ok "library/ubuntu".toList := by
  decide

/-- C8: for a bare repository name `p` (one segment: no slash, no tag, no digest) that
`NewName` accepts, the host is `docker.io`, the path is `library/p` and the string form is
`docker.io/library/p`. -/
theorem newName_bare (fuel : Nat) (p : Str) (n : Name)
    (hslash : '/' ∉ p) (hcolon : ':' ∉ p) (hat : '@' ∉ p) (h : NewName p = .ok n) :
    n.Host (fuel + 1) = .ok "docker.io".toList
      ∧ n.Path (fuel + 1) = .ok ("library/".toList ++ p)
      ∧ n.String = "docker.io/library/".toList ++ p := by
  unfold NewName at h
  cases hP : ParseNormalizedNamed p with
  | error e => simp [hP] at h
  | ok r =>
    simp [hP] at h
    subst h
    unfold ParseNormalizedNamed at hP
    split at hP
    · simp at hP
    · rw [splitDockerDomain_bare hslash] at hP
      simp only at hP
      split at hP
      · simp at hP
      · have hS : defaultDomain ++ '/' :: (officialRepoName ++ '/' :: p)
            = "docker.io/library/".toList ++ p := by
          simp [defaultDomain, officialRepoName]
        rw [hS] at hP
        have hstr := Parse_String hP
        obtain ⟨nm, t, g, d, q, hR, -, hA, hB⟩ := Parse_spec hP
        obtain ⟨-, -, -, hasm⟩ := ReferenceRegexp_spec hR
        have ht : t = [] := assemble_colon (by rw [← hasm]; simp [hcolon])
        have hg : g = [] := assemble_at (by rw [← hasm]; simp [hat])
        subst ht hg
        have hname : (Named.repository d q).Name = "docker.io/library/".toList ++ p := by
          rw [anchoredNameRegexp_name hA, hasm]; simp [assemble]
        have hr : r = .repository d q := by
          unfold getBestReferenceType at hB
          split at hB
          · simp at hB
          · simp at hB; exact hB.symm
        subst hr
        have hcut : cut '/' ("docker.io/library/".toList ++ p)
            = some ("docker.io".toList, "library/".toList ++ p) := by
          have := cut_append (c := '/') (a := "docker.io".toList) ("library/".toList ++ p)
            (by decide)
          simpa using this
        refine ⟨?_, ?_, ?_⟩
        · rw [Name.Host, parseHostPath_of_cut fuel rfl (hname ▸ hcut)]; rfl
        · rw [Name.Path, parseHostPath_of_cut fuel rfl (hname ▸ hcut)]; rfl
        · simpa [Name.String] using hstr

/-- C8 at `ubuntu`. -/
theorem newName_bare_witness :
    (Name.mk (some (.repository "docker.io".toList "library/ubuntu".toList))).Host 1
        = .ok "docker.io".toList
      ∧ (Name.mk (some (.repository "docker.io".toList "library/ubuntu".toList))).Path 1
        = .ok ("library/".toList ++ "ubuntu".toList)
      ∧ (Name.mk (some (.repository "docker.io".toList "library/ubuntu".toList))).String
        = "docker.io/library/".toList ++ "ubuntu".toList :=
  newName_bare 0 "ubuntu".toList _ (by decide) (by decide) (by decide) (by decide)

/-- C9, evaluated at the synonym `deadbeef...` (64 hex digits) that `Synonyms` returns for
`library/deadbeef...`: `Normalize` panics on it, so `n.Normalize().Normalize()` and
`n.Normalize()` have no value to be equal.  Wherever `Normalize` returns a name, that name
normalizes to itself, and so does every name that `NewName` returns. -/
theorem normalize_idempotent :
    (∀ n m : Name, n.Normalize = .ok m → m.Normalize = .ok m)
      ∧ (∀ (r : Str) (m : Name), NewName r = .ok m → m.Normalize = .ok m)
      ∧ (Name.mk (some (.repository "docker.io".toList
          "library/deadbeefdeadbeefdeadbeefdeadbeefdeadbeefdeadbeefdeadbeefdeadbeef".toList))).Synonyms
            2
        = .ok [⟨some (.repository "docker.io".toList
              "library/deadbeefdeadbeefdeadbeefdeadbeefdeadbeefdeadbeefdeadbeefdeadbeef".toList)⟩,
            ⟨some (.repository "library".toList
              "deadbeefdeadbeefdeadbeefdeadbeefdeadbeefdeadbeefdeadbeefdeadbeef".toList)⟩,
            ⟨some (.repository []
              "deadbeefdeadbeefdeadbeefdeadbeefdeadbeefdeadbeefdeadbeefdeadbeef".toList)⟩,
            ⟨some (.repository "index.docker.io".toList
              "library/deadbeefdeadbeefdeadbeefdeadbeefdeadbeefdeadbeefdeadbeefdeadbeef".toList)⟩]
      ∧ (Name.mk (some (.repository []
          "deadbeefdeadbeefdeadbeefdeadbeefdeadbeefdeadbeefdeadbeefdeadbeef".toList))).Normalize
        = .error (.error (.identifier
          "deadbeefdeadbeefdeadbeefdeadbeefdeadbeefdeadbeefdeadbeefdeadbeef".toList)) := by
  refine ⟨?_, fun _ _ h => Normalize_of_NewName h, by decide, by decide⟩
  intro n m h
  cases hr : n.ref with
  | none =>
    simp only [Name.Normalize, hr, Except.ok.injEq] at h
    subst h
    rfl
  | some r =>
    cases hN : NewName n.String with
    | error e => simp [Name.Normalize, hr, hN] at h
    | ok m' =>
      simp only [Name.Normalize, hr, hN, Except.ok.injEq] at h
      subst h
      exact Normalize_of_NewName hN

/-- C10, evaluated at the synonym `deadbeef...` (64 hex digits) of
`library/deadbeef...`: `Synonyms` panics in `Normalize` whatever the recursion budget. -/
theorem synonyms_panics :
    NewName "library/deadbeefdeadbeefdeadbeefdeadbeefdeadbeefdeadbeefdeadbeefdeadbeef".toList
        = .ok ⟨some (.repository "docker.io".toList
          "library/deadbeefdeadbeefdeadbeefdeadbeefdeadbeefdeadbeefdeadbeefdeadbeef".toList)⟩
      ∧ (Name.mk (some (.repository "docker.io".toList
          "library/deadbeefdeadbeefdeadbeefdeadbeefdeadbeefdeadbeefdeadbeefdeadbeef".toList))).Synonyms
            2
        = .ok [⟨some (.repository "docker.io".toList
              "library/deadbeefdeadbeefdeadbeefdeadbeefdeadbeefdeadbeefdeadbeefdeadbeef".toList)⟩,
            ⟨some (.repository "library".toList
              "deadbeefdeadbeefdeadbeefdeadbeefdeadbeefdeadbeefdeadbeefdeadbeef".toList)⟩,
            ⟨some (.repository []
              "deadbeefdeadbeefdeadbeefdeadbeefdeadbeefdeadbeefdeadbeefdeadbeef".toList)⟩,
            ⟨some (.repository "index.docker.io".toList
              "library/deadbeefdeadbeefdeadbeefdeadbeefdeadbeefdeadbeefdeadbeefdeadbeef".toList)⟩]
      ∧ ∀ fuel, (Name.mk (some (.repository []
          "deadbeefdeadbeefdeadbeefdeadbeefdeadbeefdeadbeefdeadbeefdeadbeef".toList))).Synonyms
            (fuel + 1)
          = .error (.error (.identifier
            "deadbeefdeadbeefdeadbeefdeadbeefdeadbeefdeadbeefdeadbeefdeadbeef".toList)) := by
  refine ⟨by decide, by decide, fun fuel => ?_⟩
  have hN : (Name.mk (some (.repository []
      "deadbeefdeadbeefdeadbeefdeadbeefdeadbeefdeadbeefdeadbeefdeadbeef".toList))).Normalize
      = .error (.error (.identifier
        "deadbeefdeadbeefdeadbeefdeadbeefdeadbeefdeadbeefdeadbeefdeadbeef".toList)) := by decide
  have hC : cut '/' (Named.repository []
      "deadbeefdeadbeefdeadbeefdeadbeefdeadbeefdeadbeefdeadbeefdeadbeef".toList).Name = none := by
    decide
  simp only [Name.Synonyms, Name.parseHostPath, Name.Name, hC, hN]

/-- C11, evaluated at the synonym `deadbeef...` (64 hex digits) of `library/deadbeef...`:
`Synonyms` returns no list, with no recursion budget at all.  Whenever `Synonyms` does
return, which it does whenever the split into host and path returns, its result is not
empty, holds the receiver and holds no name twice. -/
theorem synonyms_nodup :
    (∀ (fuel : Nat) (n : Name) (l : List Name), n.Synonyms fuel = .ok l →
        l ≠ [] ∧ n ∈ l ∧ l.Nodup)
      ∧ (∀ (fuel : Nat) (n : Name) (hp : Str × Str), n.parseHostPath fuel = .ok hp →
          ∃ l, n.Synonyms fuel = .ok l)
      ∧ (∀ (fuel : Nat) (l : List Name), (Name.mk (some (.repository []
          "deadbeefdeadbeefdeadbeefdeadbeefdeadbeefdeadbeefdeadbeefdeadbeef".toList))).Synonyms
            fuel ≠ .ok l) := by
  refine ⟨fun _ _ _ h => Synonyms_invariant h, fun _ _ _ h => Synonyms_returns h, ?_⟩
  intro fuel l
  have hN : (Name.mk (some (.repository []
      "deadbeefdeadbeefdeadbeefdeadbeefdeadbeefdeadbeefdeadbeefdeadbeef".toList))).Normalize
      = .error (.error (.identifier
        "deadbeefdeadbeefdeadbeefdeadbeefdeadbeefdeadbeefdeadbeefdeadbeef".toList)) := by decide
  have hC : cut '/' (Named.repository []
      "deadbeefdeadbeefdeadbeefdeadbeefdeadbeefdeadbeefdeadbeefdeadbeef".toList).Name = none := by
    decide
  cases fuel with
  | zero => simp [Name.Synonyms, Name.parseHostPath]
  | succ k =>
    have h : (Name.mk (some (.repository []
        "deadbeefdeadbeefdeadbeefdeadbeefdeadbeefdeadbeefdeadbeefdeadbeef".toList))).Synonyms
          (k + 1)
        = .error (.error (.identifier
          "deadbeefdeadbeefdeadbeefdeadbeefdeadbeefdeadbeefdeadbeefdeadbeef".toList)) := by
      simp only [Name.Synonyms, Name.parseHostPath, Name.Name, hC, hN]
    rw [h]
    intro h'
    cases h'

/-- C12 fails at the empty name: with the matching tag `ok`, and with a matching digest,
`WithTag` and `WithDigest` panic on the nil reference, a failure without a violation of
the grammar. -/
theorem withTag_empty_panics :
    anchoredTagRegexp "ok".toList = true
      ∧ EmptyName.WithTag "ok".toList = .error .nilDereference
      ∧ anchoredDigestRegexp
          "sha256:2fb7bfc6145d0ad40334f1802707c2e2390bdcfc16ca636d9ed8a56c1101f5b9".toList = true
      ∧ EmptyName.WithDigest (NewDigest
          "sha256:2fb7bfc6145d0ad40334f1802707c2e2390bdcfc16ca636d9ed8a56c1101f5b9".toList)
        = .error .nilDereference := by
  decide

/-- C12, amended: for a non-empty name `WithTag` returns a name and no error exactly when
the tag matches its expression, and otherwise returns `EmptyName` with the error
`Cannot apply tag <tag> to image.Name <n.String()>: invalid tag format`; it never panics.
The same holds of `WithDigest` with `digest` in place of `tag`. -/
theorem withTag_withDigest_errors (n : Name) (tag : Str) (digest : Digest)
    (hne : n ≠ EmptyName) :
    ((∃ m, n.WithTag tag = .ok (m, none)) ↔ anchoredTagRegexp tag = true)
      ∧ (anchoredTagRegexp tag = false →
          n.WithTag tag = .ok (EmptyName, some (.applyTag tag n.String .tagInvalidFormat)))
      ∧ (Err.applyTag tag n.String .tagInvalidFormat).Error
          = "Cannot apply tag ".toList ++ tag ++ " to image.Name ".toList ++ n.String
            ++ ": invalid tag format".toList
      ∧ ((∃ m, n.WithDigest digest = .ok (m, none)) ↔ anchoredDigestRegexp digest.dig = true)
      ∧ (anchoredDigestRegexp digest.dig = false →
          n.WithDigest digest
            = .ok (EmptyName, some (.applyDigest digest.String n.String .digestInvalidFormat)))
      ∧ (Err.applyDigest digest.String n.String .digestInvalidFormat).Error
          = "Cannot apply digest ".toList ++ digest.String ++ " to image.Name ".toList
            ++ n.String ++ ": invalid digest format".toList := by
  obtain ⟨r, hr⟩ := ref_of_ne_empty hne
  refine ⟨⟨?_, fun h => ⟨_, Name_WithTag_ok hr h⟩⟩, Name_WithTag_error n, ?_,
    ⟨?_, fun h => ⟨_, Name_WithDigest_ok hr h⟩⟩, Name_WithDigest_error n, ?_⟩
  · rintro ⟨m, h⟩
    by_contra hv
    simp only [Bool.not_eq_true] at hv
    simp [Name_WithTag_error n hv] at h
  · simp [Err.Error]
  · rintro ⟨m, h⟩
    by_contra hv
    simp only [Bool.not_eq_true] at hv
    simp [Name_WithDigest_error n hv] at h
  · simp [Err.Error]

/-- C12, amended, at `ubuntu` with the tag `-invalid`. -/
theorem withTag_withDigest_errors_witness :
    (Name.mk (some (.repository "docker.io".toList "library/ubuntu".toList))).WithTag
        "-invalid".toList
      = .ok (EmptyName, some (.applyTag "-invalid".toList
          (Name.mk (some (.repository "docker.io".toList "library/ubuntu".toList))).String
          .tagInvalidFormat))
      ∧ (Err.applyTag "-invalid".toList
          (Name.mk (some (.repository "docker.io".toList "library/ubuntu".toList))).String
          .tagInvalidFormat).Error
        = "Cannot apply tag ".toList ++ "-invalid".toList ++ " to image.Name ".toList
          ++ (Name.mk (some (.repository "docker.io".toList "library/ubuntu".toList))).String
          ++ ": invalid tag format".toList :=
  ⟨(withTag_withDigest_errors _ "-invalid".toList EmptyDigest (by decide)).2.1 (by decide),
    (withTag_withDigest_errors _ "-invalid".toList EmptyDigest (by decide)).2.2.1⟩

/-- C13, evaluated at the synonym `n` = `deadbeef...` (64 hex digits) of
`library/deadbeef...` with the tag `v1`: `n.Path()` panics for every recursion budget
while the path of `n.WithTag("v1")` is `library/deadbeef...`.  For every non-empty name
and matching tag `WithTag` returns a name with that tag, the same name string and the
same digest, and with the same path when the name string contains a slash. -/
theorem withTag_frame :
    (∀ (n : Name) (t : Str), n ≠ EmptyName → anchoredTagRegexp t = true →
        ∃ m, n.WithTag t = .ok (m, none) ∧ m.Tag = t ∧ m.Name = n.Name ∧ m.Digest = n.Digest
          ∧ ((∃ nm, n.Name = .ok nm ∧ '/' ∈ nm) → ∀ fuel, m.Path fuel = n.Path fuel))
      ∧ (Name.mk (some (.repository []
          "deadbeefdeadbeefdeadbeefdeadbeefdeadbeefdeadbeefdeadbeefdeadbeef".toList))).WithTag
            "v1".toList
        = .ok (⟨some (.taggedReference []
            "deadbeefdeadbeefdeadbeefdeadbeefdeadbeefdeadbeefdeadbeefdeadbeef".toList
            "v1".toList)⟩, none)
      ∧ (Name.mk (some (.taggedReference []
          "deadbeefdeadbeefdeadbeefdeadbeefdeadbeefdeadbeefdeadbeefdeadbeef".toList
          "v1".toList))).Path 2
        = .ok "library/deadbeefdeadbeefdeadbeefdeadbeefdeadbeefdeadbeefdeadbeefdeadbeef".toList
      ∧ (∀ (fuel : Nat) (p : Str), (Name.mk (some (.repository []
          "deadbeefdeadbeefdeadbeefdeadbeefdeadbeefdeadbeefdeadbeefdeadbeef".toList))).Path fuel
            ≠ .ok p) := by
  refine ⟨?_, by decide, by decide, ?_⟩
  · intro n t hne ht
    obtain ⟨r, hr⟩ := ref_of_ne_empty hne
    obtain ⟨m, h1, h2, h3, h4, h5⟩ := withTag_ok n r t hr ht
    refine ⟨m, h1, h2, h3, h4, ?_⟩
    rintro ⟨nm, hnm, hs⟩
    have : nm = r.Name := by
      simp only [Name.Name, hr, Except.ok.injEq] at hnm
      exact hnm.symm
    exact h5 (this ▸ hs)
  · intro fuel p
    have hN : (Name.mk (some (.repository []
        "deadbeefdeadbeefdeadbeefdeadbeefdeadbeefdeadbeefdeadbeefdeadbeef".toList))).Normalize
        = .error (.error (.identifier
          "deadbeefdeadbeefdeadbeefdeadbeefdeadbeefdeadbeefdeadbeefdeadbeef".toList)) := by decide
    have hC : cut '/' (Named.repository []
        "deadbeefdeadbeefdeadbeefdeadbeefdeadbeefdeadbeefdeadbeefdeadbeef".toList).Name = none := by
      decide
    cases fuel with
    | zero => simp [Name.Path, Name.parseHostPath, Except.map]
    | succ k =>
      have h : (Name.mk (some (.repository []
          "deadbeefdeadbeefdeadbeefdeadbeefdeadbeefdeadbeefdeadbeefdeadbeef".toList))).Path
            (k + 1)
          = .error (.error (.identifier
            "deadbeefdeadbeefdeadbeefdeadbeefdeadbeefdeadbeefdeadbeefdeadbeef".toList)) := by
        simp only [Name.Path, Name.parseHostPath, Name.Name, hC, hN, Except.map]
      rw [h]
      intro h'
      cases h'

/-- C14: for a non-empty name and a digest that matches its expression, `WithDigest`
returns a name with that digest, the tag of the original, and the string form made of the
original name string, `:tag` when the original is tagged, `@` and the digest. -/
theorem withDigest_ok (n : Name) (d : Digest) (hne : n ≠ EmptyName)
    (hd : anchoredDigestRegexp d.dig = true) :
    ∃ m nm, n.WithDigest d = .ok (m, none) ∧ n.Name = .ok nm
      ∧ m.Digest.String = d.String ∧ m.Tag = n.Tag
      ∧ m.String = nm ++ (if (n.ref.bind Named.asTagged).isSome then ':' :: n.Tag else [])
          ++ '@' :: d.String := by
  obtain ⟨r, hr⟩ := ref_of_ne_empty hne
  refine ⟨_, r.Name, Name_WithDigest_ok hr hd, by simp [Name.Name, hr], ?_, ?_, ?_⟩
  · simp [Name.Digest, retag_asDigested, NewDigest, Digest.String]
  · simp [Name.Tag, retag_asTagged, hr]
  · have : (Named.repository r.Domain r.Path).Name = r.Name := by
      simp [Named.Name, Named.Domain, Named.Path]
    simp only [Name.String, retag_String, this, Digest.String, Name.Tag, hr, Option.some_bind]
    cases r.asTagged <;> rfl

/-- C14 at `ubuntu:some-tag` with the digest `sha256:2fb7...f5b9`. -/
theorem withDigest_ok_witness :
    ∃ m nm, (Name.mk (some (.taggedReference "docker.io".toList "library/ubuntu".toList
        "some-tag".toList))).WithDigest
          (NewDigest
            "sha256:2fb7bfc6145d0ad40334f1802707c2e2390bdcfc16ca636d9ed8a56c1101f5b9".toList)
        = .ok (m, none)
      ∧ (Name.mk (some (.taggedReference "docker.io".toList "library/ubuntu".toList
          "some-tag".toList))).Name = .ok nm
      ∧ m.Digest.String = (NewDigest
          "sha256:2fb7bfc6145d0ad40334f1802707c2e2390bdcfc16ca636d9ed8a56c1101f5b9".toList).String
      ∧ m.Tag = (Name.mk (some (.taggedReference "docker.io".toList "library/ubuntu".toList
          "some-tag".toList))).Tag
      ∧ m.String = nm ++ (if ((Name.mk (some (.taggedReference "docker.io".toList
            "library/ubuntu".toList "some-tag".toList))).ref.bind Named.asTagged).isSome then
          ':' :: (Name.mk (some (.taggedReference "docker.io".toList "library/ubuntu".toList
            "some-tag".toList))).Tag else [])
        ++ '@' :: (NewDigest
          "sha256:2fb7bfc6145d0ad40334f1802707c2e2390bdcfc16ca636d9ed8a56c1101f5b9".toList).String :=
  withDigest_ok _ _ (by decide) (by decide)

/-- C15: for the empty name `Digest` is `EmptyDigest`, `Tag` and `String` are empty and
`Normalize` returns the empty name, while `Path` and `Host` panic on the nil reference
(and return nothing for any recursion budget). -/
theorem emptyName_accessors :
    EmptyName.Digest = EmptyDigest ∧ EmptyName.Tag = [] ∧ EmptyName.String = []
      ∧ EmptyName.Normalize = .ok EmptyName
      ∧ (∀ fuel, EmptyName.Path (fuel + 1) = .error .nilDereference)
      ∧ (∀ fuel, EmptyName.Host (fuel + 1) = .error .nilDereference)
      ∧ (∀ fuel p, EmptyName.Path fuel ≠ .ok p) ∧ (∀ fuel h, EmptyName.Host fuel ≠ .ok h) := by
  refine ⟨rfl, rfl, rfl, rfl, fun _ => rfl, fun _ => rfl, ?_, ?_⟩
  · intro fuel p
    cases fuel <;> simp [Name.Path, Name.parseHostPath, Name.Name, EmptyName, Except.map]
  · intro fuel h
    cases fuel <;> simp [Name.Host, Name.parseHostPath, Name.Name, EmptyName, Except.map]

/-- C16: the synonyms of the empty name are the one-element list of the empty name. -/
theorem emptyName_synonyms (fuel : Nat) : EmptyName.Synonyms fuel = .ok [EmptyName] := rfl

/-- C17: `NewId(s).String()` is `s`, and `Filename` has the length of `s`, contains no
colon, agrees with `s` wherever `s` has no colon and has a hyphen wherever `s` has a
colon. -/
theorem id_filename (s : Str) :
    (NewId s).String = s
      ∧ (NewId s).Filename.length = s.length
      ∧ ':' ∉ (NewId s).Filename
      ∧ (∀ (i : Nat) (c : Char), s[i]? = some c → c ≠ ':' → (NewId s).Filename[i]? = some c)
      ∧ (∀ i : Nat, s[i]? = some ':' → (NewId s).Filename[i]? = some '-') := by
  refine ⟨rfl, ?_, ?_, ?_, ?_⟩
  · simp [Id.Filename, Id.String, NewId]
  · simp only [Id.Filename, Id.String, NewId, List.mem_map, not_exists, not_and]
    intro c _
    split
    · decide
    · rename_i h; exact h
  · intro i c hi hc
    simp [Id.Filename, Id.String, NewId, List.getElem?_map, hi, hc]
  · intro i hi
    simp [Id.Filename, Id.String, NewId, List.getElem?_map, hi]

/-- C18 fails at `ubuntu@sha256:dead...beef`: `WithoutDigest` returns
`docker.io/library/ubuntu`, the path is `library/ubuntu`. -/
theorem withoutDigest_not_path :
    NewName "ubuntu@sha256:deadbeefdeadbeefdeadbeefdeadbeefdeadbeefdeadbeefdeadbeefdeadbeef".toList
        = .ok ⟨some (.canonicalReference "docker.io".toList "library/ubuntu".toList
          "sha256:deadbeefdeadbeefdeadbeefdeadbeefdeadbeefdeadbeefdeadbeefdeadbeef".toList)⟩
      ∧ (Name.mk (some (.canonicalReference "docker.io".toList "library/ubuntu".toList
          "sha256:deadbeefdeadbeefdeadbeefdeadbeefdeadbeefdeadbeefdeadbeefdeadbeef".toList))).WithoutDigest
        = .ok "docker.io/library/ubuntu".toList
      ∧ (Name.mk (some (.canonicalReference "docker.io".toList "library/ubuntu".toList
          "sha256:deadbeefdeadbeefdeadbeefdeadbeefdeadbeefdeadbeefdeadbeefdeadbeef".toList))).Path 1
        = .ok "library/ubuntu".toList
      ∧ "docker.io/library/ubuntu".toList ≠ "library/ubuntu".toList := by
  decide

/-- C18, amended: for a non-empty name `WithoutDigest` returns a string without `@`,
which is the name string `n.Name()` (for a well-formed name, as every name built by the
package is). -/
theorem withoutDigest_name (n : Name) (hne : n ≠ EmptyName) :
    ∃ w, n.WithoutDigest = .ok w ∧ '@' ∉ w ∧ (n.wellFormed = true → n.Name = .ok w) := by
  obtain ⟨r, hr⟩ := ref_of_ne_empty hne
  unfold Name.WithoutDigest
  simp only [Name.Name, hr]
  cases hc : cut '@' r.Name with
  | none =>
    refine ⟨_, rfl, cut_eq_none.1 hc, fun _ => rfl⟩
  | some ab =>
    obtain ⟨a, b⟩ := ab
    obtain ⟨hs, ha⟩ := cut_eq_some hc
    refine ⟨_, rfl, ha, fun hwf => ?_⟩
    have hwf' : r.wellFormed = true := by simpa [Name.wellFormed, hr] using hwf
    exact absurd (by rw [hs]; simp) (wellFormed_Name_at hwf')

/-- C18, amended, at `ubuntu:18.10`. -/
theorem withoutDigest_name_witness :
    ∃ w, (Name.mk (some (.taggedReference "docker.io".toList "library/ubuntu".toList
        "18.10".toList))).WithoutDigest = .ok w ∧ '@' ∉ w
      ∧ ((Name.mk (some (.taggedReference "docker.io".toList "library/ubuntu".toList
          "18.10".toList))).wellFormed = true →
        (Name.mk (some (.taggedReference "docker.io".toList "library/ubuntu".toList
          "18.10".toList))).Name = .ok w) :=
  withoutDigest_name _ (by decide)

/-- C19: the name of a successful `Normalize` of a non-empty name contains a slash, so
`parseHostPath` returns with one retry at most (a budget of two calls), and for a name
that `NewName` returns host, slash and path make up the name string. -/
theorem parseHostPath_terminates :
    (∀ n m : Name, n ≠ EmptyName → n.Normalize = .ok m → ∃ nm, m.Name = .ok nm ∧ '/' ∈ nm)
      ∧ (∀ n m : Name, n ≠ EmptyName → n.Normalize = .ok m →
          ∃ hp, ∀ fuel, n.parseHostPath (fuel + 2) = .ok hp)
      ∧ (∀ (r : Str) (n : Name) (fuel : Nat), NewName r = .ok n →
          ∃ h p nm, n.Host (fuel + 1) = .ok h ∧ n.Path (fuel + 1) = .ok p ∧ n.Name = .ok nm
            ∧ h ++ '/' :: p = nm) := by
  refine ⟨?_, ?_, ?_⟩
  · intro n m hne h
    obtain ⟨r, hr, hs⟩ := NewName_slash (NewName_of_Normalize hne h)
    exact ⟨r.Name, by simp [Name.Name, hr], hs⟩
  · intro n m hne h
    obtain ⟨r, hr⟩ := ref_of_ne_empty hne
    obtain ⟨r', hr', hs'⟩ := NewName_slash (NewName_of_Normalize hne h)
    cases hc : cut '/' r.Name with
    | some hp =>
      exact ⟨hp, fun fuel => parseHostPath_of_cut (fuel + 1) hr hc⟩
    | none =>
      cases hc' : cut '/' r'.Name with
      | none => exact absurd hs' (cut_eq_none.1 hc')
      | some hp =>
        refine ⟨hp, fun fuel => ?_⟩
        have := parseHostPath_of_cut fuel hr' hc'
        simp only [Name.parseHostPath, Name.Name, hr, hc, h] at this ⊢
        simpa [Name.parseHostPath, Name.Name, hr'] using this
  · intro r n fuel h
    obtain ⟨r0, hr, hs⟩ := NewName_slash h
    obtain ⟨a, b, hp, hab⟩ := parseHostPath_slash hr hs fuel
    exact ⟨a, b, r0.Name, by simp [Name.Host, hp, Except.map], by simp [Name.Path, hp, Except.map],
      by simp [Name.Name, hr], hab⟩

/-- C19 at the name `ubuntu` without host, and at `NewName("ubuntu")`. -/
theorem parseHostPath_terminates_witness :
    (∃ hp, ∀ fuel, (Name.mk (some (.repository [] "ubuntu".toList))).parseHostPath (fuel + 2)
        = .ok hp)
      ∧ ∃ h p nm, (Name.mk (some (.repository "docker.io".toList
            "library/ubuntu".toList))).Host 1 = .ok h
          ∧ (Name.mk (some (.repository "docker.io".toList "library/ubuntu".toList))).Path 1
            = .ok p
          ∧ (Name.mk (some (.repository "docker.io".toList "library/ubuntu".toList))).Name
            = .ok nm
          ∧ h ++ '/' :: p = nm :=
  ⟨parseHostPath_terminates.2.1 ⟨some (.repository [] "ubuntu".toList)⟩
      ⟨some (.repository "docker.io".toList "library/ubuntu".toList)⟩ (by decide) (by decide),
    parseHostPath_terminates.2.2 "ubuntu".toList _ 0 (by decide)⟩

end Image
